import Mathlib

/-!
Verification of the file-tree-scanner core (scanner + renderer) against its
specification.  The Go scanner (`internal/scanner`) and renderer
(`internal/renderer`) are shallowly embedded below:

* the cancellable `context.Context` becomes `Ctx`, a poll-budget model: the
  context reports "done" from some poll onwards (`budget = some n` means the
  first `n` polls see a live context, every later poll sees the cancelled /
  deadline-exceeded context), or never (`budget = none`);
* the filesystem seen by `os.Stat` / `os.ReadDir` becomes the inductive
  `FSNode`; a directory carries a `readable` flag (false models a
  `ReadDir` failure on that directory) and its entry list;
* `scanNode` is embedded as `scanNodeF`, structurally recursive on a fuel
  argument.  The Go function never recurses past depth 51 (the hard depth-50
  ceiling fires before any directory listing), so fuel 53 is sufficient for
  every start depth; the fuel-exhaustion branch is unreachable from
  `scanNode` (= `scanNodeF` at fuel 53), which `scanNodeF_fuel_sufficient`
  proves;
* machine integers are `Int` (`Config.MaxDepth`, which may be negative) and
  `Nat` (depths and counts, which the code keeps non-negative);
* the per-directory `time.Sleep` pause has no observable effect on the
  returned data and is not modelled; the `Parent` back-pointer of `TreeNode`
  is write-only in the Go code (never read) and is likewise omitted.
-/

/-- The two values `ctx.Err()` can take once a Go context is done. -/
inductive CtxErr where
  | canceled
  | deadlineExceeded
deriving DecidableEq, Repr

/-- Poll-budget model of a `context.Context`: `budget = some n` means the
context becomes done after `n` successful polls; `none` means it is never
done.  `kind` is the error `ctx.Err()` reports once done. -/
structure Ctx where
  budget : Option Nat
  kind : CtxErr
deriving DecidableEq, Repr

/-- One non-blocking `select { case <-ctx.Done(): ...  default: }` check:
returns the observed error (if the context is done) and the context state
after the poll.  Once done, a context stays done. -/
def pollCtx : Ctx → Option CtxErr × Ctx
  | ⟨none, k⟩ => (none, ⟨none, k⟩)
  | ⟨some 0, k⟩ => (some k, ⟨some 0, k⟩)
  | ⟨some (n+1), k⟩ => (none, ⟨some n, k⟩)

/-- `config.Config`: policy bundle consumed by the scanner. -/
structure Config where
  maxDepth : Int
  showHidden : Bool
  sortDirs : Bool
  showSize : Bool
  concurrentOps : Int
deriving DecidableEq, Repr

/-- `config.DefaultConfig()`. -/
def DefaultConfig : Config :=
  { maxDepth := 15, showHidden := false, sortDirs := true, showSize := false,
    concurrentOps := 5 }

/-- A filesystem fixture: what `os.ReadDir` would reveal under one entry.  A
directory with `readable = false` models a directory whose listing fails
(permissions, I/O). -/
inductive FSNode where
  | file (name : String)
  | dir (name : String) (readable : Bool) (entries : List FSNode)

/-- Entry name, as `DirEntry.Name()` returns it. -/
def FSNode.name : FSNode → String
  | .file n => n
  | .dir n _ _ => n

/-- Entry kind, as `DirEntry.IsDir()` returns it. -/
def FSNode.isDir : FSNode → Bool
  | .file _ => false
  | .dir _ _ _ => true

/-- `scanner.TreeNode` (the `Parent` back-pointer, never read by the Go
code, is omitted). -/
inductive TreeNode where
  | mk (path name : String) (isDir : Bool) (children : List TreeNode)
deriving Repr

/-- Field `TreeNode.Path`. -/
def TreeNode.path : TreeNode → String
  | .mk p _ _ _ => p

/-- Field `TreeNode.Name`. -/
def TreeNode.name : TreeNode → String
  | .mk _ n _ _ => n

/-- Field `TreeNode.IsDir`. -/
def TreeNode.isDir : TreeNode → Bool
  | .mk _ _ d _ => d

/-- Field `TreeNode.Children`. -/
def TreeNode.children : TreeNode → List TreeNode
  | .mk _ _ _ cs => cs

/-- The `node.Children = ...` mutation of the Go code, as a functional
update. -/
def TreeNode.setChildren : TreeNode → List TreeNode → TreeNode
  | .mk p n d _, cs => .mk p n d cs

/-- Byte-wise (codepoint-wise) lexicographic strict order on char lists;
for UTF-8 this coincides with Go's byte-wise `<` on strings. -/
def charListLt : List Char → List Char → Bool
  | _, [] => false
  | [], _ :: _ => true
  | a :: as, b :: bs =>
    if a < b then true
    else if b < a then false
    else charListLt as bs

/-- Go's `<` on strings (byte-wise lexicographic). -/
def strLt (a b : String) : Bool := charListLt a.data b.data

/-- Go's `strings.Contains(s, sub)`. -/
def strContains (s sub : String) : Bool := decide (sub.data <:+: s.data)

/-- Go's `strings.HasPrefix(s, p)`. -/
def strHasPrefix (s p : String) : Bool := p.data.isPrefixOf s.data

/-- Split a character list at every `/` separator, as `filepath.Clean`'s
element scan sees it: empty components record leading, repeated or trailing
separators. -/
def splitSlash : List Char → List (List Char)
  | [] => [[]]
  | c :: cs =>
    if c = '/' then [] :: splitSlash cs
    else
      match splitSlash cs with
      | [] => [[c]]
      | h :: t => (c :: h) :: t

/-- Join path elements with single separators. -/
def joinSlash : List (List Char) → List Char
  | [] => []
  | [c] => c
  | c :: rest => c ++ '/' :: joinSlash rest

/-- The element loop of `filepath.Clean` (Unix flavour): drop empty and `.`
elements; a `..` element erases the preceding kept element, vanishes at the
root of a rooted path, and accumulates at the front of a relative path; all
other elements are kept.  `stack` holds the kept elements in reverse. -/
def cleanComponents (rooted : Bool) : List (List Char) → List (List Char) → List (List Char)
  | stack, [] => stack.reverse
  | stack, c :: rest =>
    if c = [] ∨ c = ['.'] then cleanComponents rooted stack rest
    else if c = ['.', '.'] then
      match stack with
      | [] =>
        if rooted then cleanComponents rooted [] rest
        else cleanComponents rooted [['.', '.']] rest
      | h :: t =>
        if h = ['.', '.'] then cleanComponents rooted (c :: stack) rest
        else cleanComponents rooted t rest
    else cleanComponents rooted (c :: stack) rest

/-- `filepath.Clean` (Unix flavour): lexically normalise a path — collapse
repeated separators, drop `.` elements, resolve `..` against the preceding
element (`/..` at the root vanishes), return `.` for an emptied relative
path and `/` for an emptied rooted one. -/
def cleanPath (p : String) : String :=
  let rooted : Bool := p.data.head? == some '/'
  match cleanComponents rooted [] (splitSlash p.data) with
  | [] => if rooted then "/" else "."
  | c :: cs =>
    if rooted then String.mk ('/' :: joinSlash (c :: cs))
    else String.mk (joinSlash (c :: cs))

/-- `filepath.Join(p, n)`: drop leading empty arguments, join the rest with
the separator, and `Clean` the result. -/
def joinPath (p n : String) : String :=
  if p = "" then (if n = "" then "" else cleanPath n)
  else cleanPath (p ++ "/" ++ n)

/-- A name as `os.ReadDir` returns it: a non-empty path component without
separators, never the special `.` or `..` entries. -/
def plainName (n : String) : Prop :=
  n.data ≠ [] ∧ '/' ∉ n.data ∧ n.data ≠ ['.'] ∧ n.data ≠ ['.', '.']

instance (n : String) : Decidable (plainName n) :=
  inferInstanceAs (Decidable (n.data ≠ [] ∧ '/' ∉ n.data ∧ n.data ≠ ['.'] ∧ n.data ≠ ['.', '.']))

/-- `filepath.Base(p)`: last non-empty path component (separator-only paths
give the separator itself). -/
def baseName (p : String) : String :=
  match ((p.data.splitOn '/').filter (fun s => !s.isEmpty)).getLast? with
  | some s => String.mk s
  | none => "/"

/-- The fixed reserved-substring list of `isProblematicPath`. -/
def problematicPaths : List String :=
  ["System Volume Information",
   "$Recycle.Bin",
   "$WINDOWS.~BT",
   "Recovery",
   "ProgramData\\Microsoft\\Windows Defender",
   "Windows\\System32\\config"]

/-- `FileTreeScanner.isProblematicPath`: the path contains one of the
reserved substrings. -/
def isProblematicPath (path : String) : Bool :=
  problematicPaths.any (fun sub => strContains path sub)

/-- `FileTreeScanner.filterHiddenEntries`: drop entries whose name starts
with a dot. -/
def filterHiddenEntries (entries : List FSNode) : List FSNode :=
  entries.filter (fun e => !(strHasPrefix e.name "."))

/-- The comparison closure passed to `sort.Slice` in
`FileTreeScanner.sortEntries`: directories first, then byte-wise name
order. -/
def entryLess (a b : FSNode) : Bool :=
  if a.isDir != b.isDir then a.isDir else strLt a.name b.name

/-- The (total, reflexive) order induced by `entryLess`; a list sorted by
`sort.Slice` with less-comparator `entryLess` is sorted with respect to
`entryOrder`. -/
def entryOrder (a b : FSNode) : Prop := entryLess b a = false

instance : DecidableRel entryOrder :=
  fun a b => inferInstanceAs (Decidable (entryLess b a = false))

/-- `FileTreeScanner.sortEntries`.  `sort.Slice` is an unspecified
(unstable) sort; the embedding picks insertion sort as a representative
sorted-permutation implementation for the same comparator. -/
def sortEntries (entries : List FSNode) : List FSNode :=
  List.insertionSort entryOrder entries

/-- The sibling loop of `scanNode`, parameterised by the recursive call
`scan1` (which `scanNodeF` instantiates at one fuel less, depth one more).
Per iteration: cancellation poll, child path construction, reserved-path
skip, child node construction, recursion for directories / count for
files.  On a cancellation error the loop stops at once: children appended
so far (including the failing directory child) are kept, the failing
child's partial count is discarded, remaining siblings are not processed —
exactly the Go control flow. -/
def scanChildrenF (scan1 : FSNode → TreeNode → Ctx → TreeNode × Nat × Option CtxErr × Ctx)
    (parentPath : String) : List FSNode → Ctx → List TreeNode × Nat × Option CtxErr × Ctx
  | [], ctx => ([], 0, none, ctx)
  | e :: rest, ctx =>
    let p := pollCtx ctx
    match p.1 with
    | some err => ([], 0, some err, p.2)
    | none =>
      if isProblematicPath (joinPath parentPath e.name) then
        scanChildrenF scan1 parentPath rest p.2
      else if e.isDir then
        let r := scan1 e (TreeNode.mk (joinPath parentPath e.name) e.name e.isDir []) p.2
        match r.2.2.1 with
        | some err => ([r.1], 0, some err, r.2.2.2)
        | none =>
          let s := scanChildrenF scan1 parentPath rest r.2.2.2
          (r.1 :: s.1, r.2.1 + s.2.1, s.2.2.1, s.2.2.2)
      else
        let s := scanChildrenF scan1 parentPath rest p.2
        (TreeNode.mk (joinPath parentPath e.name) e.name e.isDir [] :: s.1,
          1 + s.2.1, s.2.2.1, s.2.2.2)

/-- `FileTreeScanner.scanNode`, fuelled.  Returns (node after mutation,
count returned by the Go function, error, context after the scan).  The
fuel-0 branch is unreachable from fuel 53 (see
`scanNodeF_fuel_sufficient`). -/
def scanNodeF (cfg : Config) : Nat → FSNode → TreeNode → Nat → Ctx → TreeNode × Nat × Option CtxErr × Ctx
  | 0, _, node, _, ctx => (node, 0, none, ctx)
  | fuel+1, fs, node, depth, ctx =>
    let p := pollCtx ctx
    match p.1 with
    | some e => (node, 0, some e, p.2)
    | none =>
      if 0 ≤ cfg.maxDepth ∧ cfg.maxDepth < (depth : Int) then (node, 0, none, p.2)
      else if 50 < depth then (node, 1, none, p.2)
      else
        match fs with
        | .file _ => (node, 1, none, p.2)
        | .dir _ readable entries =>
          if readable = false then (node, 1, none, p.2)
          else
            let entries1 := if 10000 < entries.length then entries.take 1000 else entries
            let entries2 := if cfg.showHidden = false then filterHiddenEntries entries1 else entries1
            let entries3 := if cfg.sortDirs = true then sortEntries entries2 else entries2
            let s := scanChildrenF (fun e c cx => scanNodeF cfg fuel e c (depth+1) cx)
                node.path entries3 p.2
            (node.setChildren s.1, 1 + s.2.1, s.2.2.1, s.2.2.2)

/-- `FileTreeScanner.scanNode`: recursion depth is bounded by the hard
ceiling (no frame at depth greater than 50 descends), so fuel 53 realises
the unbounded Go recursion for every start depth. -/
def scanNode (cfg : Config) (fs : FSNode) (node : TreeNode) (depth : Nat) (ctx : Ctx) :
    TreeNode × Nat × Option CtxErr × Ctx :=
  scanNodeF cfg 53 fs node depth ctx

/-- The error taxonomy of `ScanDirectory`: empty input path, root stat
failure (wrapping the underlying cause), root not a directory, and a
wrapped traversal (context) error. -/
inductive ScanError where
  | emptyPath
  | statFailed (cause : String)
  | notADirectory
  | scanFailed (e : CtxErr)
deriving DecidableEq, Repr

/-- `scanner.ScanResult` (the always-`nil` `Error` field and the `TreeText`
field, which `ScanDirectory` never sets, are omitted). -/
structure ScanResult where
  rootPath : String
  nodeCount : Nat
  root : TreeNode
deriving Repr

/-- `FileTreeScanner.ScanDirectory`.  `statResult` is what `os.Stat(path)`
reveals: an error cause, or the filesystem subtree rooted at `path`. -/
def ScanDirectory (cfg : Config) (path : String) (statResult : Except String FSNode)
    (ctx : Ctx) : Except ScanError ScanResult :=
  if path = "" then .error .emptyPath
  else
    match statResult with
    | .error cause => .error (.statFailed cause)
    | .ok fs =>
      if fs.isDir = false then .error .notADirectory
      else
        let r := scanNode cfg fs (TreeNode.mk path (baseName path) true []) 0 ctx
        match r.2.2.1 with
        | some e => .error (.scanFailed e)
        | none => .ok (ScanResult.mk path r.2.1 r.1)

/-- Renderer constant `folderIcon`. -/
def folderIcon : String := "📁"

/-- Renderer constant `fileIcon`. -/
def fileIcon : String := "📄"

/-- Renderer constant `treeBranch` plus the space appended in
`renderNode`. -/
def treeBranchSp : String := "├── "

/-- Renderer constant `treeLastBranch` plus the space appended in
`renderNode`. -/
def treeLastBranchSp : String := "└── "

/-- Renderer constant `treeSpacing`. -/
def treeSpacing : String := "    "

/-- Renderer constant `treeConnection`. -/
def treeConnection : String := "│   "

/-- The `fmt.Sprintf("%s %s\n", icon, name)` line for a node's own entry. -/
def nodeLine (t : TreeNode) : String :=
  if t.isDir = true then folderIcon ++ " " ++ t.name ++ "/" ++ "\n"
  else fileIcon ++ " " ++ t.name ++ "\n"

mutual

/-- `StandardTreeRenderer.renderNode`: emit the node's own line (unless it
is the root), then each child prefixed by the connector chosen from its
position. -/
def renderNode : TreeNode → String → Bool → String
  | .mk p n d cs, pre, isRoot =>
    (if isRoot then "" else nodeLine (.mk p n d cs)) ++ renderChildren cs pre isRoot true

/-- The child loop of `renderNode`; `first` tracks `i == 0`. -/
def renderChildren : List TreeNode → String → Bool → Bool → String
  | [], _, _, _ => ""
  | c :: rest, pre, isRoot, first =>
    let isLast := rest.isEmpty
    let conn := if isRoot && first then ""
      else if isLast then treeLastBranchSp else treeBranchSp
    let nextPre := if isRoot && first then ""
      else if isLast then pre ++ treeSpacing else pre ++ treeConnection
    pre ++ conn ++ renderNode c nextPre false ++ renderChildren rest pre isRoot false

end

/-- `StandardTreeRenderer.RenderTree`: header, separator rule, blank line,
then the box-drawn tree. -/
def RenderTree : Option TreeNode → String
  | none => ""
  | some root =>
    "File Tree for: " ++ root.path ++ "\n" ++ String.mk (List.replicate 50 '=') ++ "\n\n"
      ++ renderNode root "" true

/-- The connector rule exactly as the specification claims it: no connector
for the very first child of the root, `└── ` for a last child, `├── `
otherwise.  This matches the code. -/
def connectorSpec (isRoot first isLast : Bool) : String :=
  if isRoot && first then "" else if isLast then treeLastBranchSp else treeBranchSp

/-- The descendant-indentation rule exactly as the claim states it: the
current prefix extended with blank spacing for a last child, with a
vertical-bar marker for a non-last child — with no exception for the root's
first child. -/
def childPrefixClaim (pre : String) (_isRoot _first isLast : Bool) : String :=
  if isLast then pre ++ treeSpacing else pre ++ treeConnection

/-- The descendant-indentation rule the code actually implements: as
`childPrefixClaim`, except that the very first child of the root passes the
empty prefix to its descendants. -/
def childPrefixAmended (pre : String) (isRoot first isLast : Bool) : String :=
  if isRoot && first then "" else childPrefixClaim pre isRoot first isLast

mutual

/-- A renderer following the specification's wording, parameterised by the
descendant-prefix rule (the connector rule is undisputed). -/
def renderNodeWith (cp : String → Bool → Bool → Bool → String) :
    TreeNode → String → Bool → String
  | .mk p n d cs, pre, isRoot =>
    (if isRoot then "" else nodeLine (.mk p n d cs)) ++ renderChildrenWith cp cs pre isRoot true

/-- Child loop of `renderNodeWith`. -/
def renderChildrenWith (cp : String → Bool → Bool → Bool → String) :
    List TreeNode → String → Bool → Bool → String
  | [], _, _, _ => ""
  | c :: rest, pre, isRoot, first =>
    let isLast := rest.isEmpty
    pre ++ connectorSpec isRoot first isLast
      ++ renderNodeWith cp c (cp pre isRoot first isLast) false
      ++ renderChildrenWith cp rest pre isRoot false

end

mutual

/-- Number of `TreeNode` instances reachable from a node, the node itself
included. -/
def treeSize : TreeNode → Nat
  | .mk _ _ _ cs => 1 + treeSizeList cs

/-- Sum of `treeSize` over a list of nodes. -/
def treeSizeList : List TreeNode → Nat
  | [] => 0
  | c :: rest => treeSize c + treeSizeList rest

end

mutual

/-- Number of reachable directory nodes sitting at a depth beyond the
configured `maxDepth` (when `maxDepth` is non-negative): exactly the nodes
whose `scanNode` invocation returned a count of 0 from the depth-policy
branch.  `depth` is the depth of the node itself. -/
def cutDirs (md : Int) : Nat → TreeNode → Nat
  | depth, .mk _ _ d cs =>
    (if d = true ∧ 0 ≤ md ∧ md < (depth : Int) then 1 else 0) + cutDirsList md (depth + 1) cs

/-- Sum of `cutDirs` over a list of nodes at a common depth. -/
def cutDirsList (md : Int) : Nat → List TreeNode → Nat
  | _, [] => 0
  | depth, c :: rest => cutDirs md depth c + cutDirsList md depth rest

end

/-- The sibling order the specification requires of a sorted tree: a
directory may precede anything, a file may precede only files, and within a
kind names are byte-wise non-decreasing. -/
def nodeLe (a b : TreeNode) : Bool :=
  if a.isDir != b.isDir then a.isDir else !(strLt b.name a.name)

/-- Adjacent-pairs check that a children list is ordered by `nodeLe`
(equivalently: all directories precede all files and names are
non-decreasing within each group). -/
def pairwiseLe : List TreeNode → Bool
  | [] => true
  | [_] => true
  | a :: b :: rest => nodeLe a b && pairwiseLe (b :: rest)

/-- Reachability inside a built tree: `Reachable t u` holds when `u` is `t`
itself or a node of one of `t`'s subtrees. -/
inductive Reachable : TreeNode → TreeNode → Prop where
  | refl (t : TreeNode) : Reachable t t
  | child {t c u : TreeNode} : c ∈ t.children → Reachable c u → Reachable t u

/-- A context that is never cancelled. -/
def noCancel : Ctx := ⟨none, CtxErr.canceled⟩

/-- Polling does not change which error a context reports. -/
theorem pollCtx_kind (ctx : Ctx) : (pollCtx ctx).2.kind = ctx.kind := by
  rcases ctx with ⟨b, k⟩
  rcases b with _ | _ | n <;> rfl

/-- A poll that observes an error reports the context's own error kind. -/
theorem pollCtx_fst_some {ctx : Ctx} {e : CtxErr}
    (h : (pollCtx ctx).1 = some e) : e = ctx.kind := by
  rcases ctx with ⟨b, k⟩
  rcases b with _ | _ | n
  · simp [pollCtx] at h
  · simp only [pollCtx, Option.some.injEq] at h
    exact h.symm
  · simp [pollCtx] at h

/-- Polling a never-cancelled context observes nothing and changes
nothing. -/
theorem pollCtx_budget_none {ctx : Ctx} (h : ctx.budget = none) :
    pollCtx ctx = (none, ctx) := by
  rcases ctx with ⟨b, k⟩
  cases b
  · rfl
  · simp at h

/-- One-step unfolding of `scanNode` (the fuel argument 53 of the embedding
is definitionally peeled). -/
theorem scanNode_unfold (cfg : Config) (fs : FSNode) (nd : TreeNode) (depth : Nat) (ctx : Ctx) :
    scanNode cfg fs nd depth ctx =
      match (pollCtx ctx).1 with
      | some e => (nd, 0, some e, (pollCtx ctx).2)
      | none =>
        if 0 ≤ cfg.maxDepth ∧ cfg.maxDepth < (depth : Int) then (nd, 0, none, (pollCtx ctx).2)
        else if 50 < depth then (nd, 1, none, (pollCtx ctx).2)
        else
          match fs with
          | .file _ => (nd, 1, none, (pollCtx ctx).2)
          | .dir _ readable entries =>
            if readable = false then (nd, 1, none, (pollCtx ctx).2)
            else
              let s := scanChildrenF (fun e c cx => scanNodeF cfg 52 e c (depth+1) cx) nd.path
                  (if cfg.sortDirs = true then
                    sortEntries (if cfg.showHidden = false then
                      filterHiddenEntries (if 10000 < entries.length then entries.take 1000 else entries)
                    else (if 10000 < entries.length then entries.take 1000 else entries))
                  else (if cfg.showHidden = false then
                      filterHiddenEntries (if 10000 < entries.length then entries.take 1000 else entries)
                    else (if 10000 < entries.length then entries.take 1000 else entries)))
                  (pollCtx ctx).2
              (nd.setChildren s.1, 1 + s.2.1, s.2.2.1, s.2.2.2) := rfl

/-- One-step unfolding of `scanNodeF` at positive fuel. -/
theorem scanNodeF_succ (cfg : Config) (fuel : Nat) (fs : FSNode) (nd : TreeNode)
    (depth : Nat) (ctx : Ctx) :
    scanNodeF cfg (fuel + 1) fs nd depth ctx =
      match (pollCtx ctx).1 with
      | some e => (nd, 0, some e, (pollCtx ctx).2)
      | none =>
        if 0 ≤ cfg.maxDepth ∧ cfg.maxDepth < (depth : Int) then (nd, 0, none, (pollCtx ctx).2)
        else if 50 < depth then (nd, 1, none, (pollCtx ctx).2)
        else
          match fs with
          | .file _ => (nd, 1, none, (pollCtx ctx).2)
          | .dir _ readable entries =>
            if readable = false then (nd, 1, none, (pollCtx ctx).2)
            else
              let s := scanChildrenF (fun e c cx => scanNodeF cfg fuel e c (depth+1) cx) nd.path
                  (if cfg.sortDirs = true then
                    sortEntries (if cfg.showHidden = false then
                      filterHiddenEntries (if 10000 < entries.length then entries.take 1000 else entries)
                    else (if 10000 < entries.length then entries.take 1000 else entries))
                  else (if cfg.showHidden = false then
                      filterHiddenEntries (if 10000 < entries.length then entries.take 1000 else entries)
                    else (if 10000 < entries.length then entries.take 1000 else entries)))
                  (pollCtx ctx).2
              (nd.setChildren s.1, 1 + s.2.1, s.2.2.1, s.2.2.2) := rfl

/-- Replacing children keeps the path. -/
theorem setChildren_path (t : TreeNode) (cs : List TreeNode) :
    (t.setChildren cs).path = t.path := by cases t; rfl

/-- Replacing children keeps the name. -/
theorem setChildren_name (t : TreeNode) (cs : List TreeNode) :
    (t.setChildren cs).name = t.name := by cases t; rfl

/-- Replacing children keeps the directory flag. -/
theorem setChildren_isDir (t : TreeNode) (cs : List TreeNode) :
    (t.setChildren cs).isDir = t.isDir := by cases t; rfl

/-- The children of a node after `setChildren` are the given list. -/
theorem setChildren_children (t : TreeNode) (cs : List TreeNode) :
    (t.setChildren cs).children = cs := by cases t; rfl

/-- Applying the 10000-entry size cap twice is the same as applying it
once. -/
theorem cap_cap (es : List FSNode) :
    (if 10000 < (if 10000 < es.length then es.take 1000 else es).length
     then (if 10000 < es.length then es.take 1000 else es).take 1000
     else (if 10000 < es.length then es.take 1000 else es))
    = (if 10000 < es.length then es.take 1000 else es) := by
  by_cases h : 10000 < es.length
  · simp only [if_pos h, List.length_take]
    rw [if_neg (by omega)]
  · simp only [if_neg h]

/-- C3: if listing a directory fails, the scanner recovers locally: the
node is kept as a leaf contributing exactly 1, no error leaves this
recursion frame (so siblings and ancestors are processed unaffected); the
only frame-level preconditions are that the cancellation poll at frame
entry observes a live context and that the configured depth limit has not
already cut this node off. -/
theorem scanNode_readDir_failure_recovers (cfg : Config) (name : String)
    (entries : List FSNode) (nd : TreeNode) (depth : Nat) (ctx ctx1 : Ctx)
    (hpoll : pollCtx ctx = (none, ctx1))
    (hdepth : ¬ (0 ≤ cfg.maxDepth ∧ cfg.maxDepth < (depth : Int))) :
    scanNode cfg (.dir name false entries) nd depth ctx = (nd, 1, none, ctx1) := by
  rw [scanNode_unfold, hpoll]
  by_cases h50 : 50 < depth
  · simp [hdepth, h50]
  · simp [hdepth, h50]

/-- C3 witness: a concrete unreadable directory under the default
configuration is demoted to a leaf with count 1 and no error. -/
theorem scanNode_readDir_failure_recovers_witness :
    pollCtx noCancel = (none, noCancel) ∧
    ¬ (0 ≤ DefaultConfig.maxDepth ∧ DefaultConfig.maxDepth < ((3 : Nat) : Int)) ∧
    scanNode DefaultConfig (.dir "locked" false [.file "secret"])
      (TreeNode.mk "r/locked" "locked" true []) 3 noCancel
      = (TreeNode.mk "r/locked" "locked" true [], 1, none, noCancel) :=
  ⟨rfl, by decide,
    scanNode_readDir_failure_recovers DefaultConfig "locked" [.file "secret"]
      (TreeNode.mk "r/locked" "locked" true []) 3 noCancel noCancel rfl (by decide)⟩

/-- C5 counterexample: with `maxDepth = 50`, a directory node visited at
depth 51 is cut by the depth-limit branch (which runs before the depth-50
safety ceiling) and contributes a count of 0, not the "exactly once as a
leaf" the claim asserts for every node visited at depth greater than 50. -/
theorem scanNode_depth_ceiling_counterexample :
    (scanNode (Config.mk 50 false true false 5) (.dir "d" true [.file "x"])
      (TreeNode.mk "p/d" "d" true []) 51 noCancel).2.1 = 0 ∧
    (scanNode (Config.mk 50 false true false 5) (.dir "d" true [.file "x"])
      (TreeNode.mk "p/d" "d" true []) 51 noCancel).2.1 ≠ 1 :=
  ⟨rfl, by decide⟩

/-- C5 amended: a node visited at depth greater than 50 never descends and
never lists its directory; it counts once as a leaf unless the configured
depth limit (`maxDepth ≥ 0` and `depth > maxDepth`, checked first) applies,
in which case it contributes 0.  Either way the node returns immediately,
so recursion depth stays bounded by the fixed ceiling. -/
theorem scanNode_depth_ceiling_amended (cfg : Config) (fs : FSNode) (nd : TreeNode)
    (depth : Nat) (ctx ctx1 : Ctx)
    (hdepth : 50 < depth) (hpoll : pollCtx ctx = (none, ctx1)) :
    scanNode cfg fs nd depth ctx =
      (nd, (if 0 ≤ cfg.maxDepth ∧ cfg.maxDepth < (depth : Int) then 0 else 1), none, ctx1) := by
  rw [scanNode_unfold, hpoll]
  by_cases hmd : 0 ≤ cfg.maxDepth ∧ cfg.maxDepth < (depth : Int)
  · simp [hmd]
  · simp [hmd, hdepth]

/-- C5 amended witness: at depth 51 under the default configuration
(`maxDepth = 15`), the depth-limit branch applies and the node contributes
0. -/
theorem scanNode_depth_ceiling_amended_witness :
    50 < 51 ∧ pollCtx noCancel = (none, noCancel) ∧
    scanNode DefaultConfig (.dir "deep" true [.file "x"]) (TreeNode.mk "p" "deep" true [])
        51 noCancel =
      (TreeNode.mk "p" "deep" true [],
        (if 0 ≤ DefaultConfig.maxDepth ∧ DefaultConfig.maxDepth < ((51 : Nat) : Int) then 0 else 1),
        none, noCancel) :=
  ⟨by decide, rfl,
    scanNode_depth_ceiling_amended DefaultConfig (.dir "deep" true [.file "x"])
      (TreeNode.mk "p" "deep" true []) 51 noCancel noCancel (by decide) rfl⟩

/-- C6: scanning a directory is identical to scanning the same directory
with its entry list pre-truncated by the size cap: when the entry count
exceeds 10000 exactly the first 1000 entries (in enumeration order) are
retained for all further processing, and otherwise all entries are
retained. -/
theorem scanNode_entry_cap (cfg : Config) (name : String) (readable : Bool)
    (entries : List FSNode) (nd : TreeNode) (depth : Nat) (ctx : Ctx) :
    scanNode cfg (.dir name readable entries) nd depth ctx =
    scanNode cfg
      (.dir name readable (if 10000 < entries.length then entries.take 1000 else entries))
      nd depth ctx := by
  rcases hp : pollCtx ctx with ⟨eo, ctx1⟩
  rw [scanNode_unfold, scanNode_unfold, hp]
  cases eo
  · by_cases hmd : 0 ≤ cfg.maxDepth ∧ cfg.maxDepth < (depth : Int)
    · simp [hmd]
    · by_cases h50 : 50 < depth
      · simp [hmd, h50]
      · by_cases hr : readable = false
        · simp [hmd, h50, hr]
        · simp only [hmd, h50, hr, if_false, if_neg, cap_cap]
  · rfl

/-- Unfolding of the sibling loop on the empty entry list. -/
theorem scanChildrenF_nil (scan1 : FSNode → TreeNode → Ctx → TreeNode × Nat × Option CtxErr × Ctx)
    (path : String) (ctx : Ctx) : scanChildrenF scan1 path [] ctx = ([], 0, none, ctx) := rfl

/-- Unfolding of the sibling loop on a non-empty entry list. -/
theorem scanChildrenF_cons (scan1 : FSNode → TreeNode → Ctx → TreeNode × Nat × Option CtxErr × Ctx)
    (path : String) (e : FSNode) (rest : List FSNode) (ctx : Ctx) :
    scanChildrenF scan1 path (e :: rest) ctx =
      match (pollCtx ctx).1 with
      | some err => ([], 0, some err, (pollCtx ctx).2)
      | none =>
        if isProblematicPath (joinPath path e.name) then
          scanChildrenF scan1 path rest (pollCtx ctx).2
        else if e.isDir then
          let r := scan1 e (TreeNode.mk (joinPath path e.name) e.name e.isDir []) (pollCtx ctx).2
          match r.2.2.1 with
          | some err => ([r.1], 0, some err, r.2.2.2)
          | none =>
            let s := scanChildrenF scan1 path rest r.2.2.2
            (r.1 :: s.1, r.2.1 + s.2.1, s.2.2.1, s.2.2.2)
        else
          let s := scanChildrenF scan1 path rest (pollCtx ctx).2
          (TreeNode.mk (joinPath path e.name) e.name e.isDir [] :: s.1,
            1 + s.2.1, s.2.2.1, s.2.2.2) := rfl

/-- The scanner never changes the identity of the node it is given: path,
name and directory flag of the returned node are those passed in (only the
children list is filled). -/
theorem scanNodeF_fields (cfg : Config) (fuel : Nat) (fs : FSNode) (nd : TreeNode)
    (depth : Nat) (ctx : Ctx) :
    ((scanNodeF cfg fuel fs nd depth ctx).1).path = nd.path ∧
    ((scanNodeF cfg fuel fs nd depth ctx).1).name = nd.name ∧
    ((scanNodeF cfg fuel fs nd depth ctx).1).isDir = nd.isDir := by
  cases fuel with
  | zero => exact ⟨rfl, rfl, rfl⟩
  | succ fuel =>
    rw [scanNodeF_succ]
    rcases ho : (pollCtx ctx).1 with _ | e
    · by_cases hmd : 0 ≤ cfg.maxDepth ∧ cfg.maxDepth < (depth : Int)
      · simp [hmd]
      · by_cases h50 : 50 < depth
        · simp [hmd, h50]
        · cases fs with
          | file n => simp [hmd, h50]
          | dir n r es =>
            by_cases hr : r = false
            · simp [hmd, h50, hr]
            · simp [hmd, h50, hr, setChildren_path, setChildren_name, setChildren_isDir]
    · exact ⟨rfl, rfl, rfl⟩

/-- The sibling loop preserves the context's error kind, and any error it
returns is that kind — provided the recursive call does the same. -/
theorem scanChildrenF_err_kind
    (scan1 : FSNode → TreeNode → Ctx → TreeNode × Nat × Option CtxErr × Ctx) (path : String)
    (h1 : ∀ e c cx, ((scan1 e c cx).2.2.2).kind = cx.kind ∧
      ∀ er, (scan1 e c cx).2.2.1 = some er → er = cx.kind) :
    ∀ (es : List FSNode) (ctx : Ctx),
      ((scanChildrenF scan1 path es ctx).2.2.2).kind = ctx.kind ∧
      ∀ er, (scanChildrenF scan1 path es ctx).2.2.1 = some er → er = ctx.kind := by
  intro es
  induction es with
  | nil =>
    intro ctx
    refine ⟨rfl, ?_⟩
    intro er h
    simp [scanChildrenF_nil] at h
  | cons e rest ih =>
    intro ctx
    rw [scanChildrenF_cons]
    have hk : (pollCtx ctx).2.kind = ctx.kind := pollCtx_kind ctx
    rcases ho : (pollCtx ctx).1 with _ | er0
    · by_cases hprob : isProblematicPath (joinPath path e.name)
      · simp only [if_pos hprob]
        refine ⟨(ih (pollCtx ctx).2).1.trans hk, ?_⟩
        intro er h
        exact ((ih (pollCtx ctx).2).2 er h).trans hk
      · by_cases hd : e.isDir = true
        · simp only [if_neg hprob, hd, if_true]
          generalize hr : scan1 e (TreeNode.mk (joinPath path e.name) e.name true [])
            (pollCtx ctx).2 = r
          have h2 := h1 e (TreeNode.mk (joinPath path e.name) e.name true []) (pollCtx ctx).2
          rw [hr] at h2
          rcases ho2 : r.2.2.1 with _ | er1
          · simp only
            refine ⟨(ih r.2.2.2).1.trans (h2.1.trans hk), ?_⟩
            intro er h
            exact (((ih r.2.2.2).2 er h).trans h2.1).trans hk
          · simp only
            refine ⟨h2.1.trans hk, ?_⟩
            intro er h
            simp only [Option.some.injEq] at h
            subst h
            exact (h2.2 er1 ho2).trans hk
        · simp only [if_neg hprob, hd, if_false]
          refine ⟨(ih (pollCtx ctx).2).1.trans hk, ?_⟩
          intro er h
          exact ((ih (pollCtx ctx).2).2 er h).trans hk
    · refine ⟨hk, ?_⟩
      intro er h
      simp only [Option.some.injEq] at h
      subst h
      exact pollCtx_fst_some ho

/-- The scanner preserves the context's error kind, and any error it
returns is exactly the error the context reports: cancellation /
deadline-exceeded conditions propagate unaltered through every recursion
frame. -/
theorem scanNodeF_err_kind (cfg : Config) :
    ∀ (fuel : Nat) (fs : FSNode) (nd : TreeNode) (depth : Nat) (ctx : Ctx),
      ((scanNodeF cfg fuel fs nd depth ctx).2.2.2).kind = ctx.kind ∧
      ∀ er, (scanNodeF cfg fuel fs nd depth ctx).2.2.1 = some er → er = ctx.kind := by
  intro fuel
  induction fuel with
  | zero =>
    intro fs nd depth ctx
    refine ⟨rfl, ?_⟩
    intro er h
    simp [scanNodeF] at h
  | succ fuel ih =>
    intro fs nd depth ctx
    rw [scanNodeF_succ]
    have hk : (pollCtx ctx).2.kind = ctx.kind := pollCtx_kind ctx
    rcases ho : (pollCtx ctx).1 with _ | er0
    · by_cases hmd : 0 ≤ cfg.maxDepth ∧ cfg.maxDepth < (depth : Int)
      · simp only [if_pos hmd]
        exact ⟨hk, by intro er h; simp at h⟩
      · by_cases h50 : 50 < depth
        · simp only [if_neg hmd, if_pos h50]
          exact ⟨hk, by intro er h; simp at h⟩
        · cases fs with
          | file n =>
            simp only [if_neg hmd, if_neg h50]
            exact ⟨hk, by intro er h; simp at h⟩
          | dir n r es =>
            by_cases hr : r = false
            · simp only [if_neg hmd, if_neg h50, if_pos hr]
              exact ⟨hk, by intro er h; simp at h⟩
            · simp only [if_neg hmd, if_neg h50, if_neg hr]
              have hc := scanChildrenF_err_kind
                (fun e c cx => scanNodeF cfg fuel e c (depth+1) cx) nd.path
                (fun e c cx => ih e c (depth+1) cx)
              refine ⟨(hc _ (pollCtx ctx).2).1.trans hk, ?_⟩
              intro er h
              exact ((hc _ (pollCtx ctx).2).2 er h).trans hk
    · exact ⟨hk, by
        intro er h
        simp only [Option.some.injEq] at h
        subst h
        exact pollCtx_fst_some ho⟩

/-- With a never-cancelled context the sibling loop returns no error and
leaves the context unchanged — provided the recursive call does the same. -/
theorem scanChildrenF_budget
    (scan1 : FSNode → TreeNode → Ctx → TreeNode × Nat × Option CtxErr × Ctx) (path : String)
    (h1 : ∀ e c cx, cx.budget = none →
      (scan1 e c cx).2.2.2 = cx ∧ (scan1 e c cx).2.2.1 = none) :
    ∀ (es : List FSNode) (ctx : Ctx), ctx.budget = none →
      (scanChildrenF scan1 path es ctx).2.2.2 = ctx ∧
      (scanChildrenF scan1 path es ctx).2.2.1 = none := by
  intro es
  induction es with
  | nil => intro ctx _; exact ⟨rfl, rfl⟩
  | cons e rest ih =>
    intro ctx h
    rw [scanChildrenF_cons, pollCtx_budget_none h]
    simp only
    cases hprob : isProblematicPath (joinPath path e.name) with
    | true =>
      simp only [if_pos hprob]
      exact ih ctx h
    | false =>
      simp only [hprob, Bool.false_eq_true, if_false]
      by_cases hd : e.isDir = true
      · simp only [hd, if_true]
        generalize hr : scan1 e (TreeNode.mk (joinPath path e.name) e.name true []) ctx = r
        have h2 := h1 e (TreeNode.mk (joinPath path e.name) e.name true []) ctx h
        rw [hr] at h2
        rw [h2.2]
        simp only
        rw [h2.1]
        exact ih ctx h
      · simp only [hd, if_false]
        exact ih ctx h

/-- With a never-cancelled context the scanner returns no error and leaves
the context unchanged. -/
theorem scanNodeF_budget (cfg : Config) :
    ∀ (fuel : Nat) (fs : FSNode) (nd : TreeNode) (depth : Nat) (ctx : Ctx), ctx.budget = none →
      (scanNodeF cfg fuel fs nd depth ctx).2.2.2 = ctx ∧
      (scanNodeF cfg fuel fs nd depth ctx).2.2.1 = none := by
  intro fuel
  induction fuel with
  | zero => intro fs nd depth ctx _; exact ⟨rfl, rfl⟩
  | succ fuel ih =>
    intro fs nd depth ctx h
    rw [scanNodeF_succ, pollCtx_budget_none h]
    simp only
    by_cases hmd : 0 ≤ cfg.maxDepth ∧ cfg.maxDepth < (depth : Int)
    · simp [hmd]
    · by_cases h50 : 50 < depth
      · simp [hmd, h50]
      · cases fs with
        | file n => simp [hmd, h50]
        | dir n r es =>
          by_cases hr : r = false
          · simp [hmd, h50, hr]
          · simp only [if_neg hmd, if_neg h50, if_neg hr]
            exact scanChildrenF_budget _ nd.path
              (fun e c cx hcx => ih e c (depth+1) cx hcx) _ ctx h

/-- Skipping reserved-substring entries inside the loop is the same as
filtering them out of the entry list beforehand (stated for a
never-cancelled context, where the polls of skipped iterations are
observationally silent), provided the recursive call preserves such a
context. -/
theorem scanChildrenF_skip_filter
    (scan1 : FSNode → TreeNode → Ctx → TreeNode × Nat × Option CtxErr × Ctx) (path : String)
    (h1 : ∀ e c cx, cx.budget = none → (scan1 e c cx).2.2.2 = cx) :
    ∀ (es : List FSNode) (ctx : Ctx), ctx.budget = none →
      scanChildrenF scan1 path es ctx
        = scanChildrenF scan1 path
            (es.filter (fun e => !(isProblematicPath (joinPath path e.name)))) ctx := by
  intro es
  induction es with
  | nil => intro ctx _; rfl
  | cons e rest ih =>
    intro ctx h
    cases hprob : isProblematicPath (joinPath path e.name) with
    | true =>
      have hf : (e :: rest).filter (fun e => !(isProblematicPath (joinPath path e.name)))
          = rest.filter (fun e => !(isProblematicPath (joinPath path e.name))) := by
        simp [List.filter_cons, hprob]
      rw [hf, scanChildrenF_cons, pollCtx_budget_none h]
      simp only [if_pos hprob]
      exact ih ctx h
    | false =>
      have hf : (e :: rest).filter (fun e => !(isProblematicPath (joinPath path e.name)))
          = e :: rest.filter (fun e => !(isProblematicPath (joinPath path e.name))) := by
        simp [List.filter_cons, hprob]
      rw [hf, scanChildrenF_cons, scanChildrenF_cons, pollCtx_budget_none h]
      simp only [hprob, Bool.false_eq_true, if_false]
      by_cases hd : e.isDir = true
      · simp only [hd, if_true]
        generalize hr : scan1 e (TreeNode.mk (joinPath path e.name) e.name true []) ctx = r
        have h2 := h1 e (TreeNode.mk (joinPath path e.name) e.name true []) ctx h
        rw [hr] at h2
        rcases ho2 : r.2.2.1 with _ | er
        · simp only
          rw [ih r.2.2.2 (by rw [h2]; exact h)]
        · simp only
      · simp only [hd, Bool.false_eq_true, if_false]
        rw [ih ctx h]

/-- Every node the sibling loop appends has a non-reserved path — provided
the recursive call keeps the path of the node it is given. -/
theorem scanChildrenF_child_paths
    (scan1 : FSNode → TreeNode → Ctx → TreeNode × Nat × Option CtxErr × Ctx) (path : String)
    (hpath : ∀ e c cx, ((scan1 e c cx).1).path = c.path) :
    ∀ (es : List FSNode) (ctx : Ctx) (c : TreeNode),
      c ∈ (scanChildrenF scan1 path es ctx).1 → isProblematicPath c.path = false := by
  intro es
  induction es with
  | nil => intro ctx c hc; simp [scanChildrenF_nil] at hc
  | cons e rest ih =>
    intro ctx c hc
    rw [scanChildrenF_cons] at hc
    rcases ho : (pollCtx ctx).1 with _ | er0
    · rw [ho] at hc
      simp only at hc
      cases hprob : isProblematicPath (joinPath path e.name) with
      | true =>
        rw [if_pos hprob] at hc
        exact ih _ c hc
      | false =>
        rw [hprob] at hc
        simp only [Bool.false_eq_true, if_false] at hc
        by_cases hd : e.isDir = true
        · rw [hd, if_pos rfl] at hc
          generalize hr : scan1 e (TreeNode.mk (joinPath path e.name) e.name true []) (pollCtx ctx).2 = r at hc
          have h2 := hpath e (TreeNode.mk (joinPath path e.name) e.name true []) (pollCtx ctx).2
          rw [hr] at h2
          rcases ho2 : r.2.2.1 with _ | er1
          · rw [ho2] at hc
            simp only [List.mem_cons] at hc
            rcases hc with rfl | hc
            · rw [h2]; exact hprob
            · exact ih _ c hc
          · rw [ho2] at hc
            simp only [List.mem_singleton] at hc
            subst hc
            rw [h2]; exact hprob
        · simp only [hd, Bool.false_eq_true, if_false, List.mem_cons] at hc
          rcases hc with rfl | hc
          · exact hprob
          · exact ih _ c hc
    · rw [ho] at hc
      simp at hc

/-- From a childless node, only the node itself is reachable. -/
theorem reachable_of_leaf {t u : TreeNode} (h : Reachable t u) (hc : t.children = []) :
    u = t := by
  cases h with
  | refl => rfl
  | child hmem hr => rw [hc] at hmem; exact absurd hmem (by simp)

/-- Any predicate that holds of every recursion result (on a bare node) and
of every bare node holds of every node the sibling loop produces. -/
theorem scanChildrenF_subtree
    (scan1 : FSNode → TreeNode → Ctx → TreeNode × Nat × Option CtxErr × Ctx) (path : String)
    (P : TreeNode → Prop)
    (hscan : ∀ e c cx, c.children = [] → P ((scan1 e c cx).1))
    (hbare : ∀ p n d, P (TreeNode.mk p n d [])) :
    ∀ (es : List FSNode) (ctx : Ctx) (c : TreeNode),
      c ∈ (scanChildrenF scan1 path es ctx).1 → P c := by
  intro es
  induction es with
  | nil => intro ctx c hc; simp [scanChildrenF_nil] at hc
  | cons e rest ih =>
    intro ctx c hc
    rw [scanChildrenF_cons] at hc
    rcases ho : (pollCtx ctx).1 with _ | er0
    · rw [ho] at hc
      simp only at hc
      cases hprob : isProblematicPath (joinPath path e.name) with
      | true =>
        rw [if_pos hprob] at hc
        exact ih _ c hc
      | false =>
        rw [hprob] at hc
        simp only [Bool.false_eq_true, if_false] at hc
        by_cases hd : e.isDir = true
        · rw [hd, if_pos rfl] at hc
          rcases ho2 : (scan1 e (TreeNode.mk (joinPath path e.name) e.name true [])
              (pollCtx ctx).2).2.2.1 with _ | er1
          · rw [ho2] at hc
            simp only [List.mem_cons] at hc
            rcases hc with rfl | hc
            · exact hscan e _ _ rfl
            · exact ih _ c hc
          · rw [ho2] at hc
            simp only [List.mem_singleton] at hc
            subst hc
            exact hscan e _ _ rfl
        · simp only [hd, Bool.false_eq_true, if_false, List.mem_cons] at hc
          rcases hc with rfl | hc
          · exact hbare _ _ _
          · exact ih _ c hc
    · rw [ho] at hc
      simp at hc

/-- What a successful `ScanDirectory` call tells us: the stat succeeded on
the scanned subtree, the traversal finished without a context error, and
the result packages the traversal's node and count. -/
theorem scanDirectory_ok_elim {cfg : Config} {path : String} {st : Except String FSNode}
    {ctx : Ctx} {res : ScanResult} (h : ScanDirectory cfg path st ctx = .ok res) :
    ∃ fs, st = .ok fs ∧
      (scanNode cfg fs (TreeNode.mk path (baseName path) true []) 0 ctx).2.2.1 = none ∧
      res = ScanResult.mk path
        (scanNode cfg fs (TreeNode.mk path (baseName path) true []) 0 ctx).2.1
        (scanNode cfg fs (TreeNode.mk path (baseName path) true []) 0 ctx).1 := by
  by_cases hp : path = ""
  · simp [ScanDirectory, hp] at h
  · rcases st with cause | fs
    · simp [ScanDirectory, hp] at h
    · by_cases hd : fs.isDir = false
      · simp [ScanDirectory, hp, hd] at h
      · rcases ho : (scanNode cfg fs (TreeNode.mk path (baseName path) true []) 0 ctx).2.2.1
          with _ | er
        · refine ⟨fs, rfl, ho, ?_⟩
          simp only [ScanDirectory, hp, if_false, hd, Bool.true_eq_false, ho,
            Except.ok.injEq] at h
          exact h.symm
        · simp [ScanDirectory, hp, hd, ho] at h

/-- C2: if the context is cancelled or its deadline is exceeded during
traversal (the traversal reports a context error), that error propagates
unaltered to `ScanDirectory`, which returns the wrapped cancellation cause
and no `ScanResult`; the error is exactly the condition the context
reports.  Propagation through intermediate frames without processing
further siblings is what `scanChildrenF` does on `some`: it stops the loop
immediately and hands the error up. -/
theorem scanDirectory_cancellation_propagates (cfg : Config) (path : String) (fs : FSNode)
    (ctx : Ctx) (e : CtxErr)
    (hpath : path ≠ "") (hdir : fs.isDir = true)
    (herr : (scanNode cfg fs (TreeNode.mk path (baseName path) true []) 0 ctx).2.2.1 = some e) :
    ScanDirectory cfg path (.ok fs) ctx = .error (.scanFailed e) ∧ e = ctx.kind := by
  constructor
  · simp only [ScanDirectory, hpath, if_false, hdir, Bool.true_eq_false, herr]
  · exact (scanNodeF_err_kind cfg 53 fs (TreeNode.mk path (baseName path) true []) 0 ctx).2 e herr

/-- C2 witness: a context whose deadline expires at the second poll (inside
the sibling loop) aborts a concrete scan with the deadline error and no
result. -/
theorem scanDirectory_cancellation_propagates_witness :
    ("r" : String) ≠ "" ∧ (FSNode.dir "r" true [.file "a"]).isDir = true ∧
    (scanNode DefaultConfig (.dir "r" true [.file "a"])
      (TreeNode.mk "r" (baseName "r") true []) 0 ⟨some 1, CtxErr.deadlineExceeded⟩).2.2.1
      = some CtxErr.deadlineExceeded ∧
    ScanDirectory DefaultConfig "r" (.ok (.dir "r" true [.file "a"]))
        ⟨some 1, CtxErr.deadlineExceeded⟩
      = .error (.scanFailed CtxErr.deadlineExceeded) ∧
    CtxErr.deadlineExceeded = (Ctx.mk (some 1) CtxErr.deadlineExceeded).kind :=
  ⟨by decide, rfl, rfl,
    scanDirectory_cancellation_propagates DefaultConfig "r" (.dir "r" true [.file "a"])
      ⟨some 1, CtxErr.deadlineExceeded⟩ CtxErr.deadlineExceeded (by decide) rfl rfl⟩

/-- C4: `ScanDirectory` returns the empty-path error exactly for the empty
root path, the stat error (wrapping its cause) exactly when stat fails on a
non-empty path, and the not-a-directory error exactly when a non-empty path
stats to a plain file; consequently none of the three root-level errors
occurs for a non-empty path naming an inspectable directory. -/
theorem scanDirectory_root_errors (cfg : Config) (path : String) (st : Except String FSNode)
    (ctx : Ctx) :
    (ScanDirectory cfg path st ctx = .error .emptyPath ↔ path = "") ∧
    (∀ cause, ScanDirectory cfg path st ctx = .error (.statFailed cause) ↔
      path ≠ "" ∧ st = Except.error cause) ∧
    (ScanDirectory cfg path st ctx = .error .notADirectory ↔
      path ≠ "" ∧ ∃ n, st = Except.ok (.file n)) := by
  by_cases hp : path = ""
  · simp [ScanDirectory, hp]
  · rcases st with cause | fs
    · simp [ScanDirectory, hp]
    · rcases fs with n | ⟨n, r, es⟩
      · simp [ScanDirectory, hp, FSNode.isDir]
      · rcases ho : (scanNode cfg (.dir n r es) (TreeNode.mk path (baseName path) true []) 0 ctx).2.2.1
          with _ | er
        · simp [ScanDirectory, hp, FSNode.isDir, ho]
        · simp [ScanDirectory, hp, FSNode.isDir, ho]

/-- Count bookkeeping of the sibling loop: when no error occurs, the count
the loop adds equals the total size of the produced child subtrees minus
the directory children cut by the depth limit — provided the recursive call
satisfies the same accounting one level deeper. -/
theorem scanChildrenF_count
    (scan1 : FSNode → TreeNode → Ctx → TreeNode × Nat × Option CtxErr × Ctx)
    (path : String) (md : Int) (dchild : Nat)
    (h1 : ∀ e c cx, e.isDir = true → c.children = [] → c.isDir = true →
      (scan1 e c cx).2.2.1 = none →
      (scan1 e c cx).2.1 + cutDirs md dchild ((scan1 e c cx).1)
        = treeSize ((scan1 e c cx).1)) :
    ∀ (es : List FSNode) (ctx : Ctx), (scanChildrenF scan1 path es ctx).2.2.1 = none →
      (scanChildrenF scan1 path es ctx).2.1
        + cutDirsList md dchild ((scanChildrenF scan1 path es ctx).1)
        = treeSizeList ((scanChildrenF scan1 path es ctx).1) := by
  intro es
  induction es with
  | nil => intro ctx _; simp [scanChildrenF_nil, cutDirsList, treeSizeList]
  | cons e rest ih =>
    intro ctx herr
    rcases ho : (pollCtx ctx).1 with _ | er0
    · rw [scanChildrenF_cons, ho] at herr ⊢
      simp only at herr ⊢
      by_cases hprob : isProblematicPath (joinPath path e.name) = true
      · rw [if_pos hprob] at herr ⊢
        exact ih _ herr
      · rw [if_neg hprob] at herr ⊢
        by_cases hd : e.isDir = true
        · rw [if_pos hd] at herr ⊢
          rcases ho2 : (scan1 e (TreeNode.mk (joinPath path e.name) e.name e.isDir [])
              (pollCtx ctx).2).2.2.1 with _ | er1
          · rw [ho2] at herr
            simp only at herr ⊢
            have hhead := h1 e (TreeNode.mk (joinPath path e.name) e.name e.isDir [])
              (pollCtx ctx).2 hd rfl hd ho2
            have htail := ih _ herr
            simp only [cutDirsList, treeSizeList]
            omega
          · rw [ho2] at herr
            simp at herr
        · rw [if_neg hd] at herr ⊢
          have htail := ih _ herr
          have hfalse : e.isDir = false := by
            cases hbd : e.isDir
            · rfl
            · exact absurd hbd hd
          rw [hfalse]
          simp only [cutDirsList, treeSizeList, cutDirs, treeSize, Bool.false_eq_true,
            false_and, if_false]
          omega
    · rw [scanChildrenF_cons, ho] at herr
      simp at herr

/-- Count bookkeeping of the scanner: on an error-free run starting from a
bare directory node, the returned count plus the number of directory nodes
cut by the depth limit equals the number of nodes of the returned tree.
The fuel/depth side conditions are those of the `scanNode` entry point
(fuel 53 at depth 0) and are maintained down the recursion. -/
theorem scanNodeF_count (cfg : Config) :
    ∀ (fuel depth : Nat), fuel + depth = 53 → depth ≤ 52 →
      ∀ (fs : FSNode) (nd : TreeNode) (ctx : Ctx),
        nd.children = [] → nd.isDir = true →
        (scanNodeF cfg fuel fs nd depth ctx).2.2.1 = none →
        (scanNodeF cfg fuel fs nd depth ctx).2.1
          + cutDirs cfg.maxDepth depth ((scanNodeF cfg fuel fs nd depth ctx).1)
          = treeSize ((scanNodeF cfg fuel fs nd depth ctx).1) := by
  intro fuel
  induction fuel with
  | zero => intro depth hsum hle; omega
  | succ fuel ih =>
    intro depth hsum hle fs nd ctx hch hdir herr
    rcases nd with ⟨p, n, d, cs⟩
    have hcs : cs = [] := hch
    have hd : d = true := hdir
    subst hcs
    subst hd
    rcases ho : (pollCtx ctx).1 with _ | er0
    · rw [scanNodeF_succ, ho] at herr ⊢
      simp only at herr ⊢
      by_cases hmd : 0 ≤ cfg.maxDepth ∧ cfg.maxDepth < (depth : Int)
      · rw [if_pos hmd] at herr ⊢
        simp [cutDirs, cutDirsList, treeSize, treeSizeList, hmd]
      · rw [if_neg hmd] at herr ⊢
        by_cases h50 : 50 < depth
        · rw [if_pos h50] at herr ⊢
          simp [cutDirs, cutDirsList, treeSize, treeSizeList, hmd]
        · rw [if_neg h50] at herr ⊢
          cases fs with
          | file fn =>
            simp only at herr ⊢
            simp [cutDirs, cutDirsList, treeSize, treeSizeList, hmd]
          | dir dn r es =>
            simp only at herr ⊢
            by_cases hr : r = false
            · rw [if_pos hr] at herr ⊢
              simp [cutDirs, cutDirsList, treeSize, treeSizeList, hmd]
            · rw [if_neg hr] at herr ⊢
              simp only at herr ⊢
              have hcount := scanChildrenF_count
                (fun e c cx => scanNodeF cfg fuel e c (depth+1) cx)
                (TreeNode.mk p n true []).path cfg.maxDepth (depth + 1)
                (fun e c cx he hc hcd hno =>
                  ih (depth + 1) (by omega) (by omega) e c cx hc hcd hno)
                _ _ herr
              simp only [TreeNode.path] at hcount ⊢
              simp only [TreeNode.setChildren, cutDirs, cutDirsList, treeSize, treeSizeList,
                true_and]
              rw [if_neg hmd]
              omega
    · rw [scanNodeF_succ, ho] at herr
      simp at herr

/-- C1 counterexample: with `maxDepth = 0`, a subdirectory entry of the
root is appended to the returned tree but the depth-limit branch returns a
count of 0 for it, so `nodeCount` is 1 while 2 `TreeNode` instances are
reachable from the returned root. -/
theorem scanDirectory_nodeCount_counterexample :
    ScanDirectory (Config.mk 0 false true false 5) "r"
        (.ok (.dir "r" true [.dir "a" true []])) noCancel
      = .ok (ScanResult.mk "r" 1 (TreeNode.mk "r" "r" true [TreeNode.mk "r/a" "a" true []])) ∧
    treeSize (TreeNode.mk "r" "r" true [TreeNode.mk "r/a" "a" true []]) = 2 ∧
    (1 : Nat) ≠ 2 :=
  ⟨rfl, rfl, by decide⟩

/-- C1 amended: for every successful scan, `nodeCount` plus the number of
reachable directory nodes lying beyond the configured depth limit equals
the number of `TreeNode` instances reachable from the returned root
(including the root).  Such beyond-the-limit directories (children
appended exactly at the depth boundary) are the only reachable nodes the
count misses; when `maxDepth` is negative or no directory sits at the
boundary, `nodeCount` equals the reachable count exactly. -/
theorem scanDirectory_nodeCount_amended (cfg : Config) (path : String)
    (st : Except String FSNode) (ctx : Ctx) (res : ScanResult)
    (h : ScanDirectory cfg path st ctx = .ok res) :
    res.nodeCount + cutDirs cfg.maxDepth 0 res.root = treeSize res.root := by
  obtain ⟨fs, hst, hnone, hres⟩ := scanDirectory_ok_elim h
  subst hres
  exact scanNodeF_count cfg 53 0 rfl (by omega) fs (TreeNode.mk path (baseName path) true [])
    ctx rfl rfl hnone

/-- C1 amended witness: a concrete successful scan under the default
configuration satisfies the count accounting. -/
theorem scanDirectory_nodeCount_amended_witness :
    ScanDirectory DefaultConfig "r" (.ok (.dir "r" true [.file "a"])) noCancel
      = .ok (ScanResult.mk "r" 2 (TreeNode.mk "r" "r" true [TreeNode.mk "r/a" "a" false []])) ∧
    (ScanResult.mk "r" 2 (TreeNode.mk "r" "r" true
        [TreeNode.mk "r/a" "a" false []])).nodeCount
      + cutDirs DefaultConfig.maxDepth 0
        (ScanResult.mk "r" 2 (TreeNode.mk "r" "r" true [TreeNode.mk "r/a" "a" false []])).root
      = treeSize
        (ScanResult.mk "r" 2 (TreeNode.mk "r" "r" true [TreeNode.mk "r/a" "a" false []])).root :=
  ⟨rfl, scanDirectory_nodeCount_amended DefaultConfig "r"
    (.ok (.dir "r" true [.file "a"])) noCancel
    (ScanResult.mk "r" 2 (TreeNode.mk "r" "r" true [TreeNode.mk "r/a" "a" false []])) rfl⟩

/-- Byte-wise list order is asymmetric. -/
theorem charListLt_asymm : ∀ a b : List Char, charListLt a b = true → charListLt b a = false := by
  intro a
  induction a with
  | nil =>
    intro b h
    cases b with
    | nil => simp [charListLt] at h
    | cons y ys => rfl
  | cons x xs ih =>
    intro b h
    cases b with
    | nil => simp [charListLt] at h
    | cons y ys =>
      simp only [charListLt] at h ⊢
      rcases lt_trichotomy x y with h1 | h1 | h1
      · simp [h1, lt_asymm h1]
      · subst h1
        simp only [lt_irrefl, if_false] at h ⊢
        exact ih ys h
      · simp [h1, lt_asymm h1] at h


/-- The complement of byte-wise list order is transitive. -/
theorem charListLt_notlt_trans :
    ∀ a b c : List Char, charListLt b a = false → charListLt c b = false →
      charListLt c a = false := by
  intro a
  induction a with
  | nil =>
    intro b c hba hcb
    cases c with
    | nil => rfl
    | cons z zs => rfl
  | cons x xs ih =>
    intro b c hba hcb
    cases b with
    | nil => simp [charListLt] at hba
    | cons y ys =>
      cases c with
      | nil => simp [charListLt] at hcb
      | cons z zs =>
        simp only [charListLt] at hba hcb ⊢
        rcases lt_trichotomy y x with h1 | h1 | h1
        · simp [h1] at hba
        · subst h1
          rcases lt_trichotomy z y with h2 | h2 | h2
          · simp [h2] at hcb
          · subst h2
            simp only [lt_irrefl, if_false] at hba hcb ⊢
            exact ih ys zs hba hcb
          · simp [h2, lt_asymm h2]
        · rcases lt_trichotomy z y with h2 | h2 | h2
          · simp [h2] at hcb
          · subst h2
            simp [h1, lt_asymm h1]
          · have h3 := lt_trans h1 h2
            simp [h3, lt_asymm h3]

/-- `entryLess` is asymmetric. -/
theorem entryLess_asymm {a b : FSNode} (h : entryLess a b = true) : entryLess b a = false := by
  unfold entryLess at h ⊢
  by_cases hne : a.isDir != b.isDir
  · rw [if_pos hne] at h
    have hne' : b.isDir != a.isDir := by
      cases ha : a.isDir <;> cases hb : b.isDir <;> simp [ha, hb] at hne ⊢
    rw [if_pos hne']
    cases ha : a.isDir <;> cases hb : b.isDir <;> simp [ha, hb] at h hne ⊢
  · rw [if_neg hne] at h
    have hne' : ¬(b.isDir != a.isDir) := by
      cases ha : a.isDir <;> cases hb : b.isDir <;> simp [ha, hb] at hne ⊢
    rw [if_neg hne']
    exact charListLt_asymm _ _ h

/-- The complement of `entryLess` is transitive. -/
theorem entryLess_notlt_trans {a b c : FSNode}
    (hba : entryLess b a = false) (hcb : entryLess c b = false) : entryLess c a = false := by
  unfold entryLess at hba hcb ⊢
  cases ha : a.isDir <;> cases hb : b.isDir <;> cases hc : c.isDir <;>
    simp [ha, hb, hc] at hba hcb ⊢ <;>
    exact charListLt_notlt_trans _ _ _ hba hcb

instance : IsTrans FSNode entryOrder :=
  ⟨fun _ _ _ hab hbc => entryLess_notlt_trans hab hbc⟩

instance : IsTotal FSNode entryOrder :=
  ⟨fun a b => by
    unfold entryOrder
    cases h : entryLess b a
    · exact Or.inl rfl
    · exact Or.inr (entryLess_asymm h)⟩

/-- `sortEntries` produces a list sorted by `entryOrder`. -/
theorem sortEntries_sorted (es : List FSNode) :
    List.Pairwise entryOrder (sortEntries es) :=
  List.sorted_insertionSort entryOrder es

/-- The sibling order required of built nodes follows from the entry order
of their source entries. -/
theorem entryOrder_nodeLe {e e' : FSNode} (h : entryOrder e e') :
    ∀ a b : TreeNode, a.isDir = e.isDir → a.name = e.name → b.isDir = e'.isDir →
      b.name = e'.name → nodeLe a b = true := by
  intro a b had han hbd hbn
  unfold entryOrder entryLess at h
  unfold nodeLe
  rw [had, han, hbd, hbn]
  cases hd1 : e.isDir <;> cases hd2 : e'.isDir <;> simp [hd1, hd2] at h ⊢ <;> simp [h]

/-- Building an ordered children list: cons a node onto an ordered list it
dominates. -/
theorem pairwiseLe_cons_of (a : TreeNode) (l : List TreeNode) (hl : pairwiseLe l = true)
    (hhead : ∀ b, l.head? = some b → nodeLe a b = true) : pairwiseLe (a :: l) = true := by
  cases l with
  | nil => rfl
  | cons b bs =>
    simp only [pairwiseLe, Bool.and_eq_true]
    exact ⟨hhead b rfl, hl⟩

/-- If the entry list is sorted by the comparator, the children the sibling
loop produces are ordered (directories before files, names non-decreasing
within each kind), and each child's name and kind come from some entry —
provided the recursive call keeps name and kind of the node it is given. -/
theorem scanChildrenF_sorted
    (scan1 : FSNode → TreeNode → Ctx → TreeNode × Nat × Option CtxErr × Ctx) (path : String)
    (hfields : ∀ e c cx, ((scan1 e c cx).1).name = c.name ∧ ((scan1 e c cx).1).isDir = c.isDir) :
    ∀ (es : List FSNode) (ctx : Ctx), List.Pairwise entryOrder es →
      pairwiseLe ((scanChildrenF scan1 path es ctx).1) = true ∧
      ∀ c ∈ (scanChildrenF scan1 path es ctx).1,
        ∃ ee ∈ es, c.name = ee.name ∧ c.isDir = ee.isDir := by
  intro es
  induction es with
  | nil =>
    intro ctx _
    exact ⟨rfl, by intro c hc; simp [scanChildrenF_nil] at hc⟩
  | cons e rest ih =>
    intro ctx hp
    have hhd := (List.pairwise_cons.mp hp).1
    have htl := (List.pairwise_cons.mp hp).2
    rcases ho : (pollCtx ctx).1 with _ | er0
    · rw [scanChildrenF_cons, ho]
      simp only
      by_cases hprob : isProblematicPath (joinPath path e.name) = true
      · rw [if_pos hprob]
        obtain ⟨h1, h2⟩ := ih (pollCtx ctx).2 htl
        refine ⟨h1, fun c hc => ?_⟩
        obtain ⟨ee, hee, hn⟩ := h2 c hc
        exact ⟨ee, List.mem_cons_of_mem _ hee, hn⟩
      · rw [if_neg hprob]
        by_cases hd : e.isDir = true
        · rw [if_pos hd]
          have hf := hfields e (TreeNode.mk (joinPath path e.name) e.name e.isDir [])
            (pollCtx ctx).2
          rcases ho2 : (scan1 e (TreeNode.mk (joinPath path e.name) e.name e.isDir [])
              (pollCtx ctx).2).2.2.1 with _ | er1
          · simp only
            obtain ⟨hs1, hs2⟩ := ih _ htl
            constructor
            · apply pairwiseLe_cons_of _ _ hs1
              intro b hb
              have hbmem := List.mem_of_mem_head? (hb ▸ rfl :
                b ∈ (scanChildrenF scan1 path rest
                  (scan1 e (TreeNode.mk (joinPath path e.name) e.name e.isDir [])
                    (pollCtx ctx).2).2.2.2).1.head?)
              obtain ⟨ee, hee, hbn, hbd⟩ := hs2 b hbmem
              exact entryOrder_nodeLe (hhd ee hee) _ b hf.2 hf.1 hbd hbn
            · intro c hc
              rcases List.mem_cons.mp hc with rfl | hc
              · exact ⟨e, List.mem_cons_self _ _, hf.1, hf.2⟩
              · obtain ⟨ee, hee, hn⟩ := hs2 c hc
                exact ⟨ee, List.mem_cons_of_mem _ hee, hn⟩
          · simp only
            refine ⟨rfl, ?_⟩
            intro c hc
            simp only [List.mem_singleton] at hc
            subst hc
            exact ⟨e, List.mem_cons_self _ _, hf.1, hf.2⟩
        · rw [if_neg hd]
          simp only
          obtain ⟨hs1, hs2⟩ := ih (pollCtx ctx).2 htl
          constructor
          · apply pairwiseLe_cons_of _ _ hs1
            intro b hb
            have hbmem := List.mem_of_mem_head? (hb ▸ rfl :
              b ∈ (scanChildrenF scan1 path rest (pollCtx ctx).2).1.head?)
            obtain ⟨ee, hee, hbn, hbd⟩ := hs2 b hbmem
            exact entryOrder_nodeLe (hhd ee hee) _ b rfl rfl hbd hbn
          · intro c hc
            rcases List.mem_cons.mp hc with rfl | hc
            · exact ⟨e, List.mem_cons_self _ _, rfl, rfl⟩
            · obtain ⟨ee, hee, hn⟩ := hs2 c hc
              exact ⟨ee, List.mem_cons_of_mem _ hee, hn⟩
    · rw [scanChildrenF_cons, ho]
      exact ⟨rfl, by intro c hc; simp at hc⟩

/-- A node reachable from a childless node has an (empty, hence ordered)
children list. -/
theorem pairwiseLe_of_reachable_leaf {t u : TreeNode} (h : Reachable t u)
    (hc : t.children = []) : pairwiseLe u.children = true := by
  have h2 := reachable_of_leaf h hc
  subst h2
  rw [hc]
  rfl

/-- With directory-first sorting enabled, every node reachable in a scan
result (grown from a bare node) has an ordered children list. -/
theorem scanNodeF_sorted (cfg : Config) (hsort : cfg.sortDirs = true) :
    ∀ (fuel : Nat) (fs : FSNode) (nd : TreeNode) (depth : Nat) (ctx : Ctx),
      nd.children = [] →
      ∀ u, Reachable ((scanNodeF cfg fuel fs nd depth ctx).1) u →
        pairwiseLe u.children = true := by
  intro fuel
  induction fuel with
  | zero =>
    intro fs nd depth ctx hch u hu
    exact pairwiseLe_of_reachable_leaf hu hch
  | succ fuel ih =>
    intro fs nd depth ctx hch u hu
    rw [scanNodeF_succ] at hu
    rcases ho : (pollCtx ctx).1 with _ | er0
    · rw [ho] at hu
      simp only at hu
      by_cases hmd : 0 ≤ cfg.maxDepth ∧ cfg.maxDepth < (depth : Int)
      · rw [if_pos hmd] at hu
        exact pairwiseLe_of_reachable_leaf hu hch
      · rw [if_neg hmd] at hu
        by_cases h50 : 50 < depth
        · rw [if_pos h50] at hu
          exact pairwiseLe_of_reachable_leaf hu hch
        · rw [if_neg h50] at hu
          cases fs with
          | file fn =>
            simp only at hu
            exact pairwiseLe_of_reachable_leaf hu hch
          | dir dn r es =>
            simp only at hu
            by_cases hr : r = false
            · rw [if_pos hr] at hu
              exact pairwiseLe_of_reachable_leaf hu hch
            · rw [if_neg hr] at hu
              simp only at hu
              rw [if_pos hsort] at hu
              have hfields : ∀ e c cx,
                  ((scanNodeF cfg fuel e c (depth+1) cx).1).name = c.name ∧
                  ((scanNodeF cfg fuel e c (depth+1) cx).1).isDir = c.isDir :=
                fun e c cx => ⟨(scanNodeF_fields cfg fuel e c (depth+1) cx).2.1,
                  (scanNodeF_fields cfg fuel e c (depth+1) cx).2.2⟩
              have hsorted := scanChildrenF_sorted
                (fun e c cx => scanNodeF cfg fuel e c (depth+1) cx) nd.path hfields
                (sortEntries (if cfg.showHidden = false then
                  filterHiddenEntries (if 10000 < es.length then List.take 1000 es else es)
                  else (if 10000 < es.length then List.take 1000 es else es)))
                (pollCtx ctx).2
                (sortEntries_sorted _)
              cases hu with
              | refl =>
                rw [setChildren_children]
                exact hsorted.1
              | child hmem hr2 =>
                rw [setChildren_children] at hmem
                refine scanChildrenF_subtree _ nd.path
                  (fun c => ∀ u, Reachable c u → pairwiseLe u.children = true)
                  (fun e c cx hc => ih e c (depth+1) cx hc)
                  (fun p n d => ?_) _ _ _ hmem u hr2
                intro u hu3
                exact pairwiseLe_of_reachable_leaf hu3 rfl
    · rw [ho] at hu
      simp only at hu
      exact pairwiseLe_of_reachable_leaf hu hch

/-- C7: when `sortDirectoriesFirst` is true, in the children sequence of
every node of the returned tree all directory entries precede all file
entries, and within each of the two groups names are non-decreasing under
byte-wise comparison (`pairwiseLe` is the adjacent-pairs statement of
exactly that order). -/
theorem scanDirectory_sorted_children (cfg : Config) (path : String)
    (st : Except String FSNode) (ctx : Ctx) (res : ScanResult)
    (hsort : cfg.sortDirs = true) (h : ScanDirectory cfg path st ctx = .ok res) :
    ∀ u, Reachable res.root u → pairwiseLe u.children = true := by
  obtain ⟨fs, hst, hnone, hres⟩ := scanDirectory_ok_elim h
  subst hres
  intro u hu
  exact scanNodeF_sorted cfg hsort 53 fs (TreeNode.mk path (baseName path) true []) 0 ctx
    rfl u hu

/-- C7 witness: a concrete scan with unsorted fixture entries yields an
ordered children list (directory first, then files by name). -/
theorem scanDirectory_sorted_children_witness :
    DefaultConfig.sortDirs = true ∧
    ScanDirectory DefaultConfig "r"
        (.ok (.dir "r" true [.file "z", .dir "b" true [], .file "a"])) noCancel
      = .ok (ScanResult.mk "r" 4 (TreeNode.mk "r" "r" true
          [TreeNode.mk "r/b" "b" true [], TreeNode.mk "r/a" "a" false [],
           TreeNode.mk "r/z" "z" false []])) ∧
    pairwiseLe (TreeNode.mk "r" "r" true
          [TreeNode.mk "r/b" "b" true [], TreeNode.mk "r/a" "a" false [],
           TreeNode.mk "r/z" "z" false []]).children = true :=
  ⟨rfl, rfl,
    scanDirectory_sorted_children DefaultConfig "r"
      (.ok (.dir "r" true [.file "z", .dir "b" true [], .file "a"])) noCancel
      (ScanResult.mk "r" 4 (TreeNode.mk "r" "r" true
        [TreeNode.mk "r/b" "b" true [], TreeNode.mk "r/a" "a" false [],
         TreeNode.mk "r/z" "z" false []])) rfl rfl
      (TreeNode.mk "r" "r" true
        [TreeNode.mk "r/b" "b" true [], TreeNode.mk "r/a" "a" false [],
         TreeNode.mk "r/z" "z" false []])
      (Reachable.refl _)⟩

/-- A substring of a path is a substring of the plain concatenation with
any child name. -/
theorem strContains_append {p sub : String} (h : strContains p sub = true) (n : String) :
    strContains (p ++ "/" ++ n) sub = true := by
  unfold strContains at h ⊢
  simp only [decide_eq_true_eq] at h ⊢
  refine h.trans (List.IsPrefix.isInfix ?_)
  show p.data <+: (p ++ "/" ++ n).data
  rw [String.data_append, String.data_append, List.append_assoc]
  exact List.prefix_append _ _

/-- A reserved path stays reserved under plain concatenation. -/
theorem isProblematicPath_append {p : String} (h : isProblematicPath p = true) (n : String) :
    isProblematicPath (p ++ "/" ++ n) = true := by
  unfold isProblematicPath at h ⊢
  simp only [List.any_eq_true] at h ⊢
  obtain ⟨sub, hsub, hc⟩ := h
  exact ⟨sub, hsub, strContains_append hc n⟩

/-- Splitting always yields at least one component. -/
theorem splitSlash_ne_nil (l : List Char) : splitSlash l ≠ [] := by
  cases l with
  | nil => simp [splitSlash]
  | cons c cs =>
    simp only [splitSlash]
    by_cases h : c = '/'
    · simp [h]
    · rw [if_neg h]
      rcases hs : splitSlash cs with _ | ⟨h1, t⟩ <;> simp

/-- Unfolding step: a leading separator opens a fresh empty component. -/
theorem splitSlash_cons_slash (cs : List Char) :
    splitSlash ('/' :: cs) = [] :: splitSlash cs := by
  simp [splitSlash]

/-- Unfolding step: a non-separator character extends the first component. -/
theorem splitSlash_cons_ne (c : Char) (cs : List Char) (h : ¬ c = '/') :
    splitSlash (c :: cs) =
      match splitSlash cs with
      | [] => [[c]]
      | h :: t => (c :: h) :: t := by
  simp [splitSlash, h]

/-- Splitting distributes over a separator placed between two chunks. -/
theorem splitSlash_append (xs ys : List Char) :
    splitSlash (xs ++ '/' :: ys) = splitSlash xs ++ splitSlash ys := by
  induction xs with
  | nil => simp [splitSlash]
  | cons c cs ih =>
    by_cases h : c = '/'
    · subst h
      rw [List.cons_append, splitSlash_cons_slash, splitSlash_cons_slash, ih]
      rfl
    · rw [List.cons_append, splitSlash_cons_ne c (cs ++ '/' :: ys) h,
        splitSlash_cons_ne c cs h, ih]
      rcases hs : splitSlash cs with _ | ⟨h1, t⟩
      · exact absurd hs (splitSlash_ne_nil cs)
      · simp

/-- A chunk without separators is a single component. -/
theorem splitSlash_no_slash {ys : List Char} (h : '/' ∉ ys) : splitSlash ys = [ys] := by
  induction ys with
  | nil => rfl
  | cons c cs ih =>
    simp only [List.mem_cons, not_or] at h
    have hc : ¬(c = '/') := fun hc => h.1 hc.symm
    simp only [splitSlash]
    rw [if_neg hc, ih h.2]

/-- Joining distributes over a trailing component. -/
theorem joinSlash_append_last (y : List Char) :
    ∀ (xs : List (List Char)), xs ≠ [] →
      joinSlash (xs ++ [y]) = joinSlash xs ++ '/' :: y := by
  intro xs
  induction xs with
  | nil => intro h; exact absurd rfl h
  | cons c cs ih =>
    intro _
    cases cs with
    | nil => rfl
    | cons d ds =>
      have ih2 := ih (by simp)
      simp only [List.cons_append] at ih2 ⊢
      simp only [joinSlash]
      rw [ih2]
      simp

/-- A trailing plain component passes through the clean loop untouched. -/
theorem cleanComponents_append_plain (rooted : Bool) (c : List Char)
    (hc1 : c ≠ []) (hc2 : c ≠ ['.']) (hc3 : c ≠ ['.', '.']) :
    ∀ (cs stack : List (List Char)),
      cleanComponents rooted stack (cs ++ [c])
        = cleanComponents rooted stack cs ++ [c] := by
  intro cs
  induction cs with
  | nil =>
    intro stack
    rw [List.nil_append]
    simp only [cleanComponents]
    rw [if_neg (by simp [hc1, hc2]), if_neg hc3]
    exact List.reverse_cons _ _
  | cons d ds ih =>
    intro stack
    simp only [List.cons_append, cleanComponents, List.append_eq]
    by_cases h1 : d = [] ∨ d = ['.']
    · rw [if_pos h1, if_pos h1, ih]
    · rw [if_neg h1, if_neg h1]
      by_cases h2 : d = ['.', '.']
      · rw [if_pos h2, if_pos h2]
        rcases stack with _ | ⟨top, rest⟩
        · simp only
          cases rooted
          · simp only [Bool.false_eq_true, if_false]
            exact ih _
          · rw [if_pos rfl, if_pos rfl]
            exact ih _
        · simp only
          by_cases h3 : top = ['.', '.']
          · rw [if_pos h3, if_pos h3, ih]
          · rw [if_neg h3, if_neg h3, ih]
      · rw [if_neg h2, if_neg h2, ih]

/-- For a cleaned reserved parent path and a plain entry name,
`filepath.Join` is plain concatenation: cleaning removes nothing. -/
theorem joinPath_eq_append {p n : String} (hprob : isProblematicPath p = true)
    (hclean : cleanPath p = p) (hn : plainName n) :
    joinPath p n = p ++ "/" ++ n := by
  have hpe : p ≠ "" := by
    intro h
    subst h
    exact absurd hprob (by decide)
  have hpdne : p.data ≠ [] := fun h => hpe (String.ext h)
  have hdata : (p ++ "/" ++ n).data = p.data ++ '/' :: n.data := by
    rw [String.data_append, String.data_append, List.append_assoc]
    rfl
  rcases hpd : p.data with _ | ⟨ph, pt⟩
  · exact absurd hpd hpdne
  · have hsplit : splitSlash (p ++ "/" ++ n).data = splitSlash p.data ++ [n.data] := by
      rw [hdata, splitSlash_append, splitSlash_no_slash hn.2.1]
    have hrooted : (((p ++ "/" ++ n).data.head?) == some '/') = ((p.data.head?) == some '/') := by
      rw [hdata, hpd]
      rfl
    unfold joinPath
    rw [if_neg hpe]
    simp only [cleanPath]
    rw [hsplit, hrooted, cleanComponents_append_plain _ n.data hn.1 hn.2.2.1 hn.2.2.2]
    simp only [cleanPath] at hclean
    rcases hR : cleanComponents (p.data.head? == some '/') [] (splitSlash p.data)
      with _ | ⟨c0, cs0⟩
    · rw [hR] at hclean
      have hor : p = "/" ∨ p = "." := by
        cases hrb : (p.data.head? == some ('/' : Char)) with
        | false =>
          rw [hrb] at hclean
          simp only [Bool.false_eq_true, if_false] at hclean
          exact Or.inr hclean.symm
        | true =>
          rw [hrb] at hclean
          rw [if_pos rfl] at hclean
          exact Or.inl hclean.symm
      rcases hor with h | h <;> (subst h; exact absurd hprob (by decide))
    · rw [hR] at hclean
      simp only [List.cons_append]
      have hj : joinSlash (c0 :: (cs0 ++ [n.data])) = joinSlash (c0 :: cs0) ++ '/' :: n.data := by
        have hja := joinSlash_append_last n.data (c0 :: cs0) (by simp)
        simpa [List.cons_append] using hja
      cases hrb : (p.data.head? == some ('/' : Char)) with
      | false =>
        rw [hrb] at hclean
        simp only [Bool.false_eq_true, if_false] at hclean ⊢
        rw [hj]
        apply String.ext
        rw [hdata, ← hclean]
      | true =>
        rw [hrb] at hclean
        rw [if_pos rfl] at hclean
        rw [if_pos rfl, hj]
        apply String.ext
        rw [hdata, ← hclean]
        rfl

/-- For a cleaned reserved parent path, every plain-named entry inherits
the reserved substring through `filepath.Join`. -/
theorem joinPath_problematic_of_clean {p n : String} (hprob : isProblematicPath p = true)
    (hclean : cleanPath p = p) (hn : plainName n) :
    isProblematicPath (joinPath p n) = true := by
  rw [joinPath_eq_append hprob hclean hn]
  exact isProblematicPath_append hprob n

/-- When every entry's constructed child path is reserved, the sibling loop
skips every entry: no children, no count, no recursion (never-cancelled
context). -/
theorem scanChildrenF_all_skipped
    (scan1 : FSNode → TreeNode → Ctx → TreeNode × Nat × Option CtxErr × Ctx) (path : String) :
    ∀ (es : List FSNode) (ctx : Ctx),
      (∀ e ∈ es, isProblematicPath (joinPath path e.name) = true) → ctx.budget = none →
      scanChildrenF scan1 path es ctx = ([], 0, none, ctx) := by
  intro es
  induction es with
  | nil => intro ctx _ _; rfl
  | cons e rest ih =>
    intro ctx hall h
    rw [scanChildrenF_cons, pollCtx_budget_none h]
    simp only
    rw [if_pos (hall e (List.mem_cons_self _ _))]
    exact ih ctx (fun x hx => hall x (List.mem_cons_of_mem _ hx)) h

/-- Every entry the scanner's cap/hidden-filter/sort pipeline retains was
in the original entry list. -/
theorem processed_entries_subset (showHidden sortDirs : Bool) (es : List FSNode) :
    ∀ x ∈ (if sortDirs = true then
            sortEntries (if showHidden = false then
              filterHiddenEntries (if 10000 < es.length then es.take 1000 else es)
              else (if 10000 < es.length then es.take 1000 else es))
          else (if showHidden = false then
              filterHiddenEntries (if 10000 < es.length then es.take 1000 else es)
              else (if 10000 < es.length then es.take 1000 else es))),
      x ∈ es := by
  have hcap : ∀ x ∈ (if 10000 < es.length then es.take 1000 else es), x ∈ es := by
    intro x hx
    by_cases h : 10000 < es.length
    · rw [if_pos h] at hx
      exact (List.take_sublist _ _).subset hx
    · rwa [if_neg h] at hx
  have hfil : ∀ x ∈ (if showHidden = false then
      filterHiddenEntries (if 10000 < es.length then es.take 1000 else es)
      else (if 10000 < es.length then es.take 1000 else es)), x ∈ es := by
    intro x hx
    by_cases h : showHidden = false
    · rw [if_pos h] at hx
      exact hcap x ((List.filter_sublist _).subset hx)
    · rw [if_neg h] at hx
      exact hcap x hx
  intro x hx
  by_cases h : sortDirs = true
  · rw [if_pos h] at hx
    exact hfil x ((List.perm_insertionSort entryOrder _).mem_iff.mp hx)
  · rw [if_neg h] at hx
    exact hfil x hx

/-- Setting an empty children list on a childless node is the identity. -/
theorem setChildren_nil_of {nd : TreeNode} (hch : nd.children = []) :
    nd.setChildren [] = nd := by
  rcases nd with ⟨p, n, d, cs⟩
  have : cs = [] := hch
  rw [TreeNode.setChildren, this]

/-- A node reachable from a childless node has no children at all. -/
theorem no_children_of_reachable_leaf {t u : TreeNode} (h : Reachable t u)
    (hc : t.children = []) : ∀ d ∈ u.children, isProblematicPath d.path = false := by
  have h2 := reachable_of_leaf h hc
  subst h2
  rw [hc]
  intro d hd
  simp at hd

/-- No node reachable in a scan result (grown from a bare node) has a child
whose path contains a reserved substring. -/
theorem scanNodeF_no_reserved_children (cfg : Config) :
    ∀ (fuel : Nat) (fs : FSNode) (nd : TreeNode) (depth : Nat) (ctx : Ctx),
      nd.children = [] →
      ∀ u, Reachable ((scanNodeF cfg fuel fs nd depth ctx).1) u →
        ∀ d ∈ u.children, isProblematicPath d.path = false := by
  intro fuel
  induction fuel with
  | zero =>
    intro fs nd depth ctx hch u hu
    exact no_children_of_reachable_leaf hu hch
  | succ fuel ih =>
    intro fs nd depth ctx hch u hu
    rw [scanNodeF_succ] at hu
    rcases ho : (pollCtx ctx).1 with _ | er0
    · rw [ho] at hu
      simp only at hu
      by_cases hmd : 0 ≤ cfg.maxDepth ∧ cfg.maxDepth < (depth : Int)
      · rw [if_pos hmd] at hu
        exact no_children_of_reachable_leaf hu hch
      · rw [if_neg hmd] at hu
        by_cases h50 : 50 < depth
        · rw [if_pos h50] at hu
          exact no_children_of_reachable_leaf hu hch
        · rw [if_neg h50] at hu
          cases fs with
          | file fn =>
            simp only at hu
            exact no_children_of_reachable_leaf hu hch
          | dir dn r es =>
            simp only at hu
            by_cases hr : r = false
            · rw [if_pos hr] at hu
              exact no_children_of_reachable_leaf hu hch
            · rw [if_neg hr] at hu
              simp only at hu
              have hpaths : ∀ e c cx,
                  ((scanNodeF cfg fuel e c (depth+1) cx).1).path = c.path :=
                fun e c cx => (scanNodeF_fields cfg fuel e c (depth+1) cx).1
              cases hu with
              | refl =>
                intro d hd
                rw [setChildren_children] at hd
                exact scanChildrenF_child_paths _ nd.path hpaths _ _ d hd
              | child hmem hr2 =>
                rw [setChildren_children] at hmem
                exact scanChildrenF_subtree _ nd.path
                  (fun c => ∀ u, Reachable c u →
                    ∀ d ∈ u.children, isProblematicPath d.path = false)
                  (fun e c cx hc => ih e c (depth+1) cx hc)
                  (fun p n d => fun u hu3 => no_children_of_reachable_leaf hu3 rfl)
                  _ _ _ hmem u hr2
    · rw [ho] at hu
      simp only at hu
      exact no_children_of_reachable_leaf hu hch

/-- C9: reserved-substring entries are skipped entirely.  First conjunct:
in any successful scan, no node reachable from the returned root has a
child whose path contains a reserved substring.  Second conjunct: the
sibling loop of the scanner behaves exactly as if the reserved-path entries
had been removed from its entry list beforehand (stated for a
never-cancelled context, whose skipped-iteration polls are silent): they
produce no child, contribute nothing to the count, and are never recursed
into. -/
theorem scanDirectory_reserved_excluded (cfg : Config) (path : String)
    (st : Except String FSNode) (ctx : Ctx) (res : ScanResult)
    (h : ScanDirectory cfg path st ctx = .ok res) :
    (∀ u, Reachable res.root u → ∀ d ∈ u.children, isProblematicPath d.path = false) ∧
    (∀ (parentPath : String) (depth : Nat) (es : List FSNode) (k : CtxErr),
      scanChildrenF (fun e c cx => scanNodeF cfg 52 e c (depth+1) cx) parentPath es ⟨none, k⟩
        = scanChildrenF (fun e c cx => scanNodeF cfg 52 e c (depth+1) cx) parentPath
            (es.filter (fun e => !(isProblematicPath (joinPath parentPath e.name))))
            ⟨none, k⟩) := by
  constructor
  · obtain ⟨fs, hst, hnone, hres⟩ := scanDirectory_ok_elim h
    subst hres
    intro u hu
    exact scanNodeF_no_reserved_children cfg 53 fs (TreeNode.mk path (baseName path) true [])
      0 ctx rfl u hu
  · intro parentPath depth es k
    exact scanChildrenF_skip_filter _ parentPath
      (fun e c cx hcx => (scanNodeF_budget cfg 52 e c (depth+1) cx hcx).1) es ⟨none, k⟩ rfl

/-- C9 witness: scanning a fixture containing a `Recovery` subdirectory
skips it — it is absent from the root's children, which all have
non-reserved paths. -/
theorem scanDirectory_reserved_excluded_witness :
    ScanDirectory DefaultConfig "r"
        (.ok (.dir "r" true [.dir "Recovery" true [.file "s"], .file "a"])) noCancel
      = .ok (ScanResult.mk "r" 2 (TreeNode.mk "r" "r" true [TreeNode.mk "r/a" "a" false []])) ∧
    (∀ d ∈ (TreeNode.mk "r" "r" true [TreeNode.mk "r/a" "a" false []]).children,
      isProblematicPath d.path = false) :=
  ⟨rfl, fun d hd =>
    (scanDirectory_reserved_excluded DefaultConfig "r"
      (.ok (.dir "r" true [.dir "Recovery" true [.file "s"], .file "a"])) noCancel
      (ScanResult.mk "r" 2 (TreeNode.mk "r" "r" true [TreeNode.mk "r/a" "a" false []]))
      rfl).1
      (TreeNode.mk "r" "r" true [TreeNode.mk "r/a" "a" false []]) (Reachable.refl _) d hd⟩

/-- Scanning a directory whose own path is in cleaned form and already
contains a reserved substring yields the bare node with count 1: for plain
entry names `filepath.Join` is plain concatenation, so every child path
inherits the substring and is skipped. -/
theorem scanNode_reserved_root (cfg : Config) (name : String) (r : Bool) (es : List FSNode)
    (nd : TreeNode) (k : CtxErr) (hch : nd.children = [])
    (hprob : isProblematicPath nd.path = true) (hclean : cleanPath nd.path = nd.path)
    (hnames : ∀ e ∈ es, plainName e.name) :
    scanNode cfg (.dir name r es) nd 0 ⟨none, k⟩ = (nd, 1, none, ⟨none, k⟩) := by
  rw [scanNode_unfold, pollCtx_budget_none rfl]
  simp only
  rw [if_neg (by omega : ¬(0 ≤ cfg.maxDepth ∧ cfg.maxDepth < ((0 : Nat) : Int)))]
  rw [if_neg (by omega : ¬(50 < 0))]
  by_cases hr : r = false
  · simp only [if_pos hr]
  · simp only [if_neg hr]
    have hall : ∀ e ∈ (if cfg.sortDirs = true then
            sortEntries (if cfg.showHidden = false then
              filterHiddenEntries (if 10000 < es.length then es.take 1000 else es)
              else (if 10000 < es.length then es.take 1000 else es))
          else (if cfg.showHidden = false then
              filterHiddenEntries (if 10000 < es.length then es.take 1000 else es)
              else (if 10000 < es.length then es.take 1000 else es))),
        isProblematicPath (joinPath nd.path e.name) = true := by
      intro e he
      have hmem := processed_entries_subset cfg.showHidden cfg.sortDirs es e he
      exact joinPath_problematic_of_clean hprob hclean (hnames e hmem)
    rw [scanChildrenF_all_skipped _ nd.path _ ⟨none, k⟩ hall rfl]
    simp [setChildren_nil_of hch]

/-- C10 amended: for a root path in cleaned form (`filepath.Clean` is the
identity on it, as for any path the OS hands back) whose text contains a
reserved substring, and a fixture whose entry names are plain `ReadDir`
names (nonempty, no separator, not `.` or `..`), every constructed child
path inherits the substring: the scan succeeds and returns a root with no
children and `nodeCount` 1, whatever the directory's contents or
readability (never-cancelled context).  Without the cleaned-form
hypothesis the claim fails: `filepath.Join` cleans the concatenation, and
a root such as `d/Recovery/..` loses the reserved substring in its
children's paths. -/
theorem scanDirectory_reserved_root_amended (cfg : Config) (path name : String) (r : Bool)
    (es : List FSNode) (k : CtxErr)
    (hpath : path ≠ "") (hprob : isProblematicPath path = true)
    (hclean : cleanPath path = path) (hnames : ∀ e ∈ es, plainName e.name) :
    ScanDirectory cfg path (.ok (.dir name r es)) ⟨none, k⟩
      = .ok (ScanResult.mk path 1 (TreeNode.mk path (baseName path) true [])) := by
  have hscan := scanNode_reserved_root cfg name r es
    (TreeNode.mk path (baseName path) true []) k rfl hprob hclean hnames
  simp only [ScanDirectory, hpath, if_false, FSNode.isDir, Bool.true_eq_false, hscan]

/-- C10 amended witness: a cleaned root named under an ancestor directory
`Recovery` scans to an empty tree of count 1 despite having entries. -/
theorem scanDirectory_reserved_root_amended_witness :
    ("d/Recovery" : String) ≠ "" ∧ isProblematicPath "d/Recovery" = true ∧
    cleanPath "d/Recovery" = "d/Recovery" ∧
    (∀ e ∈ ([.file "x", .dir "y" true [.file "z"]] : List FSNode), plainName e.name) ∧
    ScanDirectory DefaultConfig "d/Recovery"
        (.ok (.dir "Recovery" true [.file "x", .dir "y" true [.file "z"]])) ⟨none, .canceled⟩
      = .ok (ScanResult.mk "d/Recovery" 1
          (TreeNode.mk "d/Recovery" (baseName "d/Recovery") true [])) :=
  ⟨by decide, by decide, rfl, by decide,
    scanDirectory_reserved_root_amended DefaultConfig "d/Recovery" "Recovery"
      true [.file "x", .dir "y" true [.file "z"]] CtxErr.canceled (by decide) (by decide) rfl
      (by decide)⟩

/-- C10 counterexample: the unqualified claim fails on a root path that is
not in cleaned form.  `d/Recovery/..` contains the reserved substring
`Recovery`, yet `filepath.Join("d/Recovery/..", "x")` cleans to `d/x`,
which contains no reserved substring, so the child is scanned: the result
has one child and `nodeCount` 2, not an empty-children root of count 1. -/
theorem scanDirectory_reserved_root_counterexample :
    isProblematicPath "d/Recovery/.." = true ∧
    ScanDirectory DefaultConfig "d/Recovery/.." (.ok (.dir "d" true [.file "x"])) noCancel
      = .ok (ScanResult.mk "d/Recovery/.." 2 (TreeNode.mk "d/Recovery/.." ".." true
          [TreeNode.mk "d/x" "x" false []])) ∧
    (2 : Nat) ≠ 1 ∧
    (TreeNode.mk "d/Recovery/.." ".." true [TreeNode.mk "d/x" "x" false []]).children ≠ [] :=
  ⟨by decide, rfl, by decide, by simp [TreeNode.children]⟩

/-- C8 counterexample: the claim's descendant-indentation rule (extend the
prefix with blank spacing under a last child, unconditionally) mispredicts
the code for the very first child of the root: the code passes the empty
prefix to that child's descendants.  On a root whose single directory child
has one file, the code renders the file flush-left under `└── `, while the
claim's rule renders it indented by four spaces. -/
theorem renderNode_prefix_counterexample :
    renderNode (TreeNode.mk "r" "r" true
        [TreeNode.mk "r/a" "a" true [TreeNode.mk "r/a/b" "b" false []]]) "" true
      = "📁 a/\n└── 📄 b\n" ∧
    renderNodeWith childPrefixClaim (TreeNode.mk "r" "r" true
        [TreeNode.mk "r/a" "a" true [TreeNode.mk "r/a/b" "b" false []]]) "" true
      = "📁 a/\n    └── 📄 b\n" ∧
    ("📁 a/\n└── 📄 b\n" : String) ≠ "📁 a/\n    └── 📄 b\n" :=
  ⟨rfl, rfl, by decide⟩

/-- C8 amended: the renderer follows the claimed connector rule exactly,
and the claimed indentation rule amended with one exception: the very first
child of the root passes the empty prefix (not the blank- or bar-extended
one) to its own descendants, mirroring its flush-left special case.
`renderNodeWith childPrefixAmended` is that specification, and the code
renderer equals it on every tree, prefix, and root flag. -/
theorem renderNode_amended_spec (t : TreeNode) :
    ∀ (pre : String) (isRoot : Bool),
      renderNode t pre isRoot = renderNodeWith childPrefixAmended t pre isRoot := by
  refine treeSize.induct
    (fun t => ∀ pre isRoot, renderNode t pre isRoot
      = renderNodeWith childPrefixAmended t pre isRoot)
    (fun cs => ∀ pre isRoot first, renderChildren cs pre isRoot first
      = renderChildrenWith childPrefixAmended cs pre isRoot first) ?_ ?_ ?_ t
  · intro p n d cs ihcs pre isRoot
    simp only [renderNode, renderNodeWith]
    rw [ihcs]
  · intro pre isRoot first
    rfl
  · intro c rest ihc ihrest pre isRoot first
    simp only [renderChildren, renderChildrenWith, connectorSpec, childPrefixAmended,
      childPrefixClaim]
    rw [ihc, ihrest]

/-- Pointwise equal recursive calls give equal sibling loops. -/
theorem scanChildrenF_congr
    (scan1 scan2 : FSNode → TreeNode → Ctx → TreeNode × Nat × Option CtxErr × Ctx)
    (path : String) (h : ∀ e c cx, scan1 e c cx = scan2 e c cx) :
    ∀ (es : List FSNode) (ctx : Ctx),
      scanChildrenF scan1 path es ctx = scanChildrenF scan2 path es ctx := by
  intro es
  induction es with
  | nil => intro ctx; rfl
  | cons e rest ih =>
    intro ctx
    rw [scanChildrenF_cons, scanChildrenF_cons]
    rcases ho : (pollCtx ctx).1 with _ | er
    · simp only
      by_cases hprob : isProblematicPath (joinPath path e.name) = true
      · rw [if_pos hprob, if_pos hprob, ih]
      · rw [if_neg hprob, if_neg hprob]
        by_cases hd : e.isDir = true
        · rw [if_pos hd, if_pos hd, h]
          simp only [ih]
        · rw [if_neg hd, if_neg hd]
          simp only [ih]
    · rfl

/-- Fuel does not matter once sufficient: any two fuels compatible with the
depth invariant of the entry point give identical runs. -/
theorem scanNodeF_fuel_irrel (cfg : Config) :
    ∀ (fuel₁ fuel₂ depth : Nat), 53 ≤ fuel₁ + depth → 1 ≤ fuel₁ →
      53 ≤ fuel₂ + depth → 1 ≤ fuel₂ →
      ∀ (fs : FSNode) (nd : TreeNode) (ctx : Ctx),
        scanNodeF cfg fuel₁ fs nd depth ctx = scanNodeF cfg fuel₂ fs nd depth ctx := by
  intro fuel₁
  induction fuel₁ with
  | zero => intro fuel₂ depth hs1 hf1; omega
  | succ f ih =>
    intro fuel₂ depth hs1 hf1 hs2 hf2
    cases fuel₂ with
    | zero => omega
    | succ g =>
      intro fs nd ctx
      rw [scanNodeF_succ, scanNodeF_succ]
      rcases ho : (pollCtx ctx).1 with _ | er
      · simp only
        by_cases hmd : 0 ≤ cfg.maxDepth ∧ cfg.maxDepth < (depth : Int)
        · rw [if_pos hmd, if_pos hmd]
        · rw [if_neg hmd, if_neg hmd]
          by_cases h50 : 50 < depth
          · rw [if_pos h50, if_pos h50]
          · rw [if_neg h50, if_neg h50]
            cases fs with
            | file fn => rfl
            | dir dn r es2 =>
              simp only
              by_cases hr : r = false
              · rw [if_pos hr, if_pos hr]
              · rw [if_neg hr, if_neg hr]
                have hcg := scanChildrenF_congr
                  (fun e c cx => scanNodeF cfg f e c (depth+1) cx)
                  (fun e c cx => scanNodeF cfg g e c (depth+1) cx) nd.path
                  (fun e c cx => ih g (depth+1) (by omega) (by omega) (by omega) (by omega)
                    e c cx)
                rw [hcg]
      · rfl

/-- Fuel 53 realises the Go recursion: any larger fuel computes the same
function, so the embedding's fuel-exhaustion branch is unreachable from the
`scanNode` entry point. -/
theorem scanNodeF_fuel_sufficient (cfg : Config) (fuel : Nat) (h : 53 ≤ fuel)
    (fs : FSNode) (nd : TreeNode) (depth : Nat) (ctx : Ctx) :
    scanNodeF cfg fuel fs nd depth ctx = scanNode cfg fs nd depth ctx :=
  scanNodeF_fuel_irrel cfg fuel 53 depth (by omega) (by omega) (by omega) (by omega) fs nd ctx
